import Mathlib

/-!
Shallow embedding of the forward-time ancestry recorder from
`src/content/ForwardSimulation.ipynb` (a tskit-based diploid Wright-Fisher
simulator), together with proofs checking the natural-language specification
against it.

Node identifiers are list indices into the node table, edge and individual
rows likewise.  The numpy random generator is modelled as an abstract stream
of naturals: each numpy call consumes stream positions, `integers(n)` and
index draws of `choice` are reduced modulo their bound, `poisson` draws are
taken unreduced.  Machine arithmetic is Nat/Int throughout (the simulator
only uses integer generation times and, in its final form, integer
breakpoint positions).
-/

namespace ForwardSim

/-- A row of the node table: a genome with a birth time (generations ago),
an owning-individual reference (-1 for null) and a sample flag. -/
structure Node where
  time : Nat
  individual : Int
  isSample : Bool
deriving Repr, DecidableEq

/-- A row of the edge table: parent transmitted the interval
[left, right) to child. -/
structure Edge where
  left : Nat
  right : Nat
  parent : Nat
  child : Nat
deriving Repr, DecidableEq

/-- A row of the individual table: an optional list of parent individual
references. -/
structure Individual where
  parents : List Int
deriving Repr, DecidableEq

/-- The table collection (the ledger): three append-only tables plus the
sequence length. -/
structure Tables where
  sequenceLength : Nat
  nodes : List Node
  edges : List Edge
  individuals : List Individual
deriving Repr, DecidableEq

/-- A fresh table collection, as built by tskit.TableCollection(L). -/
def Tables.empty (L : Nat) : Tables := ⟨L, [], [], []⟩

/-- Default node used for out-of-range lookups (never reached in verified
runs). -/
def defaultNode : Node := ⟨0, -1, false⟩

/-- Node row lookup by id. -/
def nodeAt (t : Tables) (n : Nat) : Node := (t.nodes[n]?).getD defaultNode

/-- Birth time of node id n. -/
def timeOf (t : Tables) (n : Nat) : Nat := (nodeAt t n).time

/-- The numpy random generator, modelled as a stream of naturals and a
position. -/
structure Rng where
  f : Nat → Nat
  pos : Nat

/-- Draw one unreduced value (models random.poisson). -/
def Rng.next (r : Rng) : Nat × Rng := (r.f r.pos, ⟨r.f, r.pos + 1⟩)

/-- Draw one value reduced modulo a bound (models random.integers(n) and
index draws of random.choice). -/
def Rng.nextMod (r : Rng) (n : Nat) : Nat × Rng := (r.f r.pos % n, ⟨r.f, r.pos + 1⟩)

/-- Draw a list of k values, each reduced modulo the bound (models
random.integers(0, bound, size=k); numpy excludes the upper bound). -/
def drawMany (bound : Nat) : Nat → Rng → List Nat × Rng
  | 0, r => ([], r)
  | k + 1, r =>
    let (b, r1) := r.nextMod bound
    let (bs, r2) := drawMany bound k r1
    (b :: bs, r2)

/-- Positions (in ascending order) drawn an odd number of times: the
crossover positions surviving np.unique with odd counts, as in
`crossovers = break_pos[counts % 2 == 1]`.  Draw values lie below the
bound, so filtering the full range reproduces the sorted unique list. -/
def oddCrossovers (bps : List Nat) (bound : Nat) : List Nat :=
  (List.range bound).filter (fun p => bps.count p % 2 == 1)

/-- Alternating edge emission over a list of intervals, starting with
parental genome `inh` (0 or 1) and switching at each interval boundary,
as in the for-loop of `add_inheritance_paths`. -/
def emitEdges : List (Nat × Nat) → Nat × Nat → Nat → Nat → List Edge
  | [], _, _, _ => []
  | (l, r) :: ivs, pg, c, inh =>
    ⟨l, r, if inh = 0 then pg.1 else pg.2, c⟩ :: emitEdges ivs pg c (1 - inh)

/-- Crossover variant of add_inheritance_paths (final cell, integer
breakpoints): draw a Poisson number of breakpoints, keep positions hit an
odd number of times, and emit one edge per interval between consecutive
crossovers, alternating the contributing parental genome. -/
def addInheritancePaths (t : Tables) (pg : Nat × Nat) (c : Nat) (r : Rng) :
    Tables × Rng :=
  let L := t.sequenceLength
  let (numRecomb, r1) := r.next
  let (bps, r2) := drawMany (L - 1) numRecomb r1
  let crossovers := oddCrossovers bps (L - 1)
  let lefts := 0 :: crossovers
  let rights := crossovers ++ [L]
  let (inh, r3) := r2.nextMod 2
  ({ t with edges := t.edges ++ emitEdges (lefts.zip rights) pg c inh }, r3)

/-- make_diploid: append one individual row and two node rows referencing
it; returns (individual id, (genome id, genome id)).  The final-cell
variant adds nodes without the sample flag. -/
def makeDiploid (t : Tables) (time : Nat) (parentIndividuals : List Int) :
    (Nat × (Nat × Nat)) × Tables :=
  let i := t.individuals.length
  let n := t.nodes.length
  ((i, (n, n + 1)),
   { t with
     individuals := t.individuals ++ [⟨parentIndividuals⟩],
     nodes := t.nodes ++ [⟨time, (i : Int), false⟩, ⟨time, (i : Int), false⟩] })

/-- A population: an insertion-ordered map from individual id to its two
genome ids (a Python dict in the source). -/
abbrev Pop := List (Nat × (Nat × Nat))

/-- Python dict lookup `prev_pop[parent_individual]` (the fallback is never
reached when the key is present). -/
def popLookup : Pop → Nat → Nat × Nat
  | [], _ => (0, 0)
  | (i, g) :: rest, k => if i = k then g else popLookup rest k

/-- One child creation step of new_pop: choose a mother and father from the
previous population, make a diploid recording them as parents, then add
inheritance paths from each chosen parent's genomes to the corresponding
child genome. -/
def newPopChild (t : Tables) (time : Nat) (prev : Pop) (r : Rng) :
    (Nat × (Nat × Nat)) × Tables × Rng :=
  let keys := prev.map (·.1)
  let (i1, r1) := r.nextMod keys.length
  let (i2, r2) := r1.nextMod keys.length
  let m : Nat := keys.getD i1 0
  let fa : Nat := keys.getD i2 0
  let (child, t1) := makeDiploid t time [(m : Int), (fa : Int)]
  let (t2, r3) := addInheritancePaths t1 (popLookup prev m) child.2.1 r2
  let (t3, r4) := addInheritancePaths t2 (popLookup prev fa) child.2.2 r3
  (child, t3, r4)

/-- The for-loop of new_pop, iterated `count` times. -/
def newPopAux : Nat → Tables → Nat → Pop → Pop → Rng → Pop × Tables × Rng
  | 0, t, _, _, acc, r => (acc, t, r)
  | count + 1, t, time, prev, acc, r =>
    let (child, t1, r1) := newPopChild t time prev r
    newPopAux count t1 time prev (acc ++ [child]) r1

/-- new_pop: build a new cohort of `popSize` diploids at the given time from
the previous population. -/
def newPop (popSize : Nat) (t : Tables) (time : Nat) (prev : Pop) (r : Rng) :
    Pop × Tables × Rng :=
  newPopAux popSize t time prev [] r

/-- The generator expression of initialise_pop, iterated `count` times. -/
def initialisePopAux : Nat → Tables → Nat → Pop → Pop × Tables
  | 0, t, _, acc => (acc, t)
  | count + 1, t, time, acc =>
    let (child, t1) := makeDiploid t time []
    initialisePopAux count t1 time (acc ++ [child])

/-- initialise_pop: a founding cohort with no recorded parents and no
inbound edges. -/
def initialisePop (popSize : Nat) (t : Tables) (time : Nat) : Pop × Tables :=
  initialisePopAux popSize t time []

/-- The while-loop of simple_diploid_sim: `g` generations remain; each step
decrements the generation clock and replaces the population. -/
def simLoop (popSize : Nat) : Nat → Tables → Pop → Rng → Tables × Pop × Rng
  | 0, t, p, r => (t, p, r)
  | g + 1, t, p, r =>
    let (p1, t1, r1) := newPop popSize t g p r
    simLoop popSize g t1 p1 r1

/-- Sort key order used by tables.sort(): edges ordered by parent birth
time, then parent id, then child id, then left coordinate. -/
def edgeLe (t : Tables) (e1 e2 : Edge) : Bool :=
  decide (timeOf t e1.parent < timeOf t e2.parent) ||
  (timeOf t e1.parent == timeOf t e2.parent &&
    (decide (e1.parent < e2.parent) ||
     (e1.parent == e2.parent &&
       (decide (e1.child < e2.child) ||
        (e1.child == e2.child && decide (e1.left ≤ e2.left))))))

/-- Insertion into a sorted edge list. -/
def insertEdge (t : Tables) (e : Edge) : List Edge → List Edge
  | [] => [e]
  | x :: xs => if edgeLe t e x then e :: x :: xs else x :: insertEdge t e xs

/-- Edge insertion sort implementing tables.sort() (only the edge table is
reordered; nodes and individuals are untouched). -/
def sortEdgeList (t : Tables) : List Edge → List Edge
  | [] => []
  | x :: xs => insertEdge t x (sortEdgeList t xs)

/-- tables.sort(). -/
def sortTables (t : Tables) : Tables := { t with edges := sortEdgeList t t.edges }

/-- simple_diploid_sim (final cell): initialise a founding population at
time G, advance through generations G-1, ..., 0, then sort the tables. -/
def simpleDiploidSim (popSize L : Nat) (generations : Nat) (r : Rng) : Tables :=
  let t := Tables.empty L
  let (p, t1) := initialisePop popSize t generations
  let (t2, _, _) := simLoop popSize generations t1 p r
  sortTables t2

/-! ### First-version simulator (no recombination, focal region) -/

/-- The focal region [20000, 21000) from the first tutorial cell
(`focal_region = [20_000, 21_000]`). -/
def focalRegion : Nat × Nat := (20000, 21000)

/-- No-recombination variant of add_inheritance_paths: a single edge over
the focal region from one randomly chosen parental genome. -/
def addInheritancePathsFocal (t : Tables) (pg : Nat × Nat) (c : Nat) (r : Rng) :
    Tables × Rng :=
  let (inh, r1) := r.nextMod 2
  ({ t with
     edges := t.edges ++ [⟨focalRegion.1, focalRegion.2, if inh = 0 then pg.1 else pg.2, c⟩] },
   r1)

/-- One loop iteration of the first-version new_population.  With a
non-empty previous population the source draws the two parent individual
ids TWICE: first `parent_individual_ids` (recorded in the individual
table), then `mother_and_father` (used for the inheritance paths); the two
draws are independent.  The first-version node rows carry the sample flag
(tskit.NODE_IS_SAMPLE). -/
def newPopulationChild (t : Tables) (time : Nat) (prev : Pop) (r : Rng) :
    (Nat × (Nat × Nat)) × Tables × Rng :=
  let keys := prev.map (·.1)
  let (recorded, r2) :=
    if prev.isEmpty then (([] : List Int), r)
    else
      let (i1, r1a) := r.nextMod keys.length
      let (i2, r1b) := r1a.nextMod keys.length
      ([((keys.getD i1 0 : Nat) : Int), ((keys.getD i2 0 : Nat) : Int)], r1b)
  let i := t.individuals.length
  let n := t.nodes.length
  let t1 : Tables :=
    { t with
      individuals := t.individuals ++ [⟨recorded⟩],
      nodes := t.nodes ++ [⟨time, (i : Int), true⟩, ⟨time, (i : Int), true⟩] }
  if prev.isEmpty then ((i, (n, n + 1)), t1, r2)
  else
    let (j1, r3) := r2.nextMod keys.length
    let (j2, r4) := r3.nextMod keys.length
    let m : Nat := keys.getD j1 0
    let fa : Nat := keys.getD j2 0
    let (t2, r5) := addInheritancePathsFocal t1 (popLookup prev m) n r4
    let (t3, r6) := addInheritancePathsFocal t2 (popLookup prev fa) (n + 1) r5
    ((i, (n, n + 1)), t3, r6)

/-- The for-loop of the first-version new_population. -/
def newPopulationAux : Nat → Tables → Nat → Pop → Pop → Rng → Pop × Tables × Rng
  | 0, t, _, _, acc, r => (acc, t, r)
  | count + 1, t, time, prev, acc, r =>
    let (child, t1, r1) := newPopulationChild t time prev r
    newPopulationAux count t1 time prev (acc ++ [child]) r1

/-- First-version new_population.  `prev = []` covers both
`prev_population=None` and an empty dict: at each `if prev_population:`
both are falsy and behave identically. -/
def newPopulation (popSize : Nat) (t : Tables) (time : Nat) (prev : Pop) (r : Rng) :
    Pop × Tables × Rng :=
  newPopulationAux popSize t time prev [] r

/-- First-version simple_diploid_sim generation loop. -/
def simLoopV1 (popSize : Nat) : Nat → Tables → Pop → Rng → Tables × Pop × Rng
  | 0, t, p, r => (t, p, r)
  | g + 1, t, p, r =>
    let (p1, t1, r1) := newPopulation popSize t g p r
    simLoopV1 popSize g t1 p1 r1

/-- First-version simple_diploid_sim: new_population based, focal-region
inheritance, all nodes flagged as samples. -/
def simpleDiploidSimV1 (popSize L : Nat) (generations : Nat) (r : Rng) : Tables :=
  let t := Tables.empty L
  let (p, t1, r1) := newPopulation popSize t generations [] r
  let (t2, _, _) := simLoopV1 popSize generations t1 p r1
  sortTables t2

/-! ### Driver (diploid_sim) -/

/-- Uncaught Python exceptions raised in diploid_sim. -/
inductive PyError where
  | typeError
  | zeroDivisionError
deriving Repr, DecidableEq

/-- The first executed statement of diploid_sim touching the cadence:
`simplify_modulo = generations % simplification_interval`.  A missing
interval (None, the default) raises TypeError, a zero interval raises
ZeroDivisionError; any other integer succeeds with Python floor-mod
semantics (Int.fmod). -/
def simplifyModulo (generations : Nat) (interval : Option Int) : Except PyError Int :=
  match interval with
  | none => .error .typeError
  | some i => if i = 0 then .error .zeroDivisionError else .ok (Int.fmod generations i)

/-- diploid_sim.  After building the table collection and computing
simplify_modulo, the source executes
`pop = initialise_pop(tables, generations, diploid_pop_size)`, but
initialise_pop is defined with two parameters `(tables, time)`, so every
call that survives the cadence modulo raises TypeError at this line,
before any generation is simulated.  No later statement of diploid_sim
(the generation loop, the periodic and final simplifications, the returned
tree sequence) is reachable. -/
def diploidSim (dipPopSize generations : Nat) (interval : Option Int) (r : Rng) :
    Except PyError Tables :=
  let _t := Tables.empty 50000
  match simplifyModulo generations interval with
  | .error e => .error e
  | .ok _ => .error .typeError

/-- A concrete random stream (arbitrary; diploid_sim consumes none of it). -/
def rngZero : Rng := ⟨fun _ => 0, 0⟩

/-! ### Interval geometry of one add_inheritance_paths call -/

/-- Consecutive intervals between boundaries:
cutIvs a [b1,...,bn] L = [(a,b1),(b1,b2),...,(bn,L)]. -/
def cutIvs (a : Nat) : List Nat → Nat → List (Nat × Nat)
  | [], L => [(a, L)]
  | b :: cs, L => (a, b) :: cutIvs b cs L

theorem zip_eq_cutIvs (cs : List Nat) : ∀ (a L : Nat),
    (a :: cs).zip (cs ++ [L]) = cutIvs a cs L := by
  induction cs with
  | nil => intro a L; rfl
  | cons b cs ih => intro a L; simp [cutIvs, List.zip, ← ih b L, List.zipWith]

theorem cutIvs_left_bound (cs : List Nat) : ∀ (a L : Nat),
    List.Chain' (· ≤ ·) (a :: cs) → ∀ q ∈ cutIvs a cs L, a ≤ q.1 := by
  induction cs with
  | nil => intro a L _ q hq; simp [cutIvs] at hq; simp [hq]
  | cons b cs ih =>
    intro a L hch q hq
    rcases List.chain'_cons.mp hch with ⟨hab, hch'⟩
    simp only [cutIvs, List.mem_cons] at hq
    rcases hq with h | h
    · simp [h]
    · exact le_trans hab (ih b L hch' q h)

theorem cutIvs_pairwise (cs : List Nat) : ∀ (a L : Nat),
    List.Chain' (· ≤ ·) (a :: cs) →
    List.Pairwise (fun p q => p.2 ≤ q.1) (cutIvs a cs L) := by
  induction cs with
  | nil => intro a L _; simp [cutIvs]
  | cons b cs ih =>
    intro a L hch
    rcases List.chain'_cons.mp hch with ⟨_, hch'⟩
    refine List.pairwise_cons.mpr ⟨?_, ih b L hch'⟩
    intro q hq
    exact cutIvs_left_bound cs b L hch' q hq

theorem cutIvs_cover (cs : List Nat) : ∀ (a L : Nat),
    List.Chain' (· ≤ ·) (a :: cs) → (∀ c ∈ cs, c ≤ L) → ∀ x : Nat,
    ((∃ p ∈ cutIvs a cs L, p.1 ≤ x ∧ x < p.2) ↔ (a ≤ x ∧ x < L)) := by
  induction cs with
  | nil => intro a L _ _ x; simp [cutIvs]
  | cons b cs ih =>
    intro a L hch hle x
    rcases List.chain'_cons.mp hch with ⟨hab, hch'⟩
    have hbL : b ≤ L := hle b (by simp)
    have hle' : ∀ c ∈ cs, c ≤ L := fun c hc => hle c (by simp [hc])
    constructor
    · intro h
      simp only [cutIvs, List.mem_cons] at h
      rcases h with ⟨p, hp | hp, hx⟩
      · subst hp
        exact ⟨hx.1, lt_of_lt_of_le hx.2 hbL⟩
      · have := (ih b L hch' hle' x).mp ⟨p, hp, hx⟩
        exact ⟨le_trans hab this.1, this.2⟩
    · intro ⟨hax, hxL⟩
      by_cases hxb : x < b
      · exact ⟨(a, b), by simp [cutIvs], hax, hxb⟩
      · have hcov := (ih b L hch' hle' x).mpr ⟨le_of_not_lt hxb, hxL⟩
        rcases hcov with ⟨p, hp, hx⟩
        exact ⟨p, by simp [cutIvs, hp], hx⟩

theorem emitEdges_intervals (ivs : List (Nat × Nat)) : ∀ (pg : Nat × Nat) (c inh : Nat),
    (emitEdges ivs pg c inh).map (fun e => (e.left, e.right)) = ivs := by
  induction ivs with
  | nil => intro pg c inh; rfl
  | cons iv ivs ih => intro pg c inh; simp [emitEdges, ih]

theorem emitEdges_child (ivs : List (Nat × Nat)) : ∀ (pg : Nat × Nat) (c inh : Nat),
    ∀ e ∈ emitEdges ivs pg c inh, e.child = c := by
  induction ivs with
  | nil => intro pg c inh e he; simp [emitEdges] at he
  | cons iv ivs ih =>
    intro pg c inh e he
    simp only [emitEdges, List.mem_cons] at he
    rcases he with h | h
    · simp [h]
    · exact ih pg c _ e h

theorem emitEdges_parent (ivs : List (Nat × Nat)) : ∀ (pg : Nat × Nat) (c inh : Nat),
    ∀ e ∈ emitEdges ivs pg c inh, e.parent = pg.1 ∨ e.parent = pg.2 := by
  induction ivs with
  | nil => intro pg c inh e he; simp [emitEdges] at he
  | cons iv ivs ih =>
    intro pg c inh e he
    simp only [emitEdges, List.mem_cons] at he
    rcases he with h | h
    · subst h; by_cases hi : inh = 0 <;> simp [hi]
    · exact ih pg c _ e h

theorem oddCrossovers_sorted (bps : List Nat) (bound : Nat) :
    List.Pairwise (· < ·) (oddCrossovers bps bound) :=
  List.Pairwise.filter _ (List.pairwise_lt_range bound)

theorem oddCrossovers_lt_bound (bps : List Nat) (bound : Nat) :
    ∀ c ∈ oddCrossovers bps bound, c < bound := by
  intro c hc
  have := List.mem_filter.mp hc
  exact List.mem_range.mp this.1

/-- The new edges appended by one crossover add_inheritance_paths call. -/
def newEdgesOf (t : Tables) (pg : Nat × Nat) (c : Nat) (r : Rng) : List Edge :=
  (addInheritancePaths t pg c r).1.edges.drop t.edges.length

theorem newEdgesOf_eq (t : Tables) (pg : Nat × Nat) (c : Nat) (r : Rng) :
    newEdgesOf t pg c r =
      emitEdges
        (cutIvs 0
          (oddCrossovers (drawMany (t.sequenceLength - 1) (r.next.1) r.next.2).1
            (t.sequenceLength - 1))
          t.sequenceLength)
        pg c
        (((drawMany (t.sequenceLength - 1) (r.next.1) r.next.2).2).nextMod 2).1 := by
  simp only [newEdgesOf, addInheritancePaths, List.drop_left, zip_eq_cutIvs]

theorem chain_zero_crossovers (bps : List Nat) (bound : Nat) :
    List.Chain' (· ≤ ·) (0 :: oddCrossovers bps bound) := by
  apply List.Pairwise.chain'
  refine List.pairwise_cons.mpr ⟨fun c _ => Nat.zero_le c, ?_⟩
  exact (oddCrossovers_sorted bps bound).imp (fun h => le_of_lt h)

/-- C2 (amended): the edges produced by one call of the crossover
add_inheritance_paths for one child all point to that child, are pairwise
non-overlapping (consecutive: each edge ends before the next begins) and
their intervals cover exactly [0, sequence_length); the no-recombination
variant instead emits a single edge from one of the two parental genomes
covering exactly the focal region [20000, 21000). -/
theorem addInheritancePaths_partition (t : Tables) (pg : Nat × Nat) (c : Nat) (r : Rng) :
    ((∀ e ∈ newEdgesOf t pg c r, e.child = c) ∧
     List.Pairwise (fun e1 e2 => e1.right ≤ e2.left) (newEdgesOf t pg c r) ∧
     (∀ x : Nat, x < t.sequenceLength ↔
        ∃ e ∈ newEdgesOf t pg c r, e.left ≤ x ∧ x < e.right)) ∧
    (∀ (t' : Tables) (pg' : Nat × Nat) (c' : Nat) (r' : Rng),
      ∃ p, (p = pg'.1 ∨ p = pg'.2) ∧
        (addInheritancePathsFocal t' pg' c' r').1.edges.drop t'.edges.length =
          [⟨focalRegion.1, focalRegion.2, p, c'⟩]) := by
  constructor
  · rw [newEdgesOf_eq]
    set L := t.sequenceLength with hL
    set cs := oddCrossovers (drawMany (L - 1) (r.next.1) r.next.2).1 (L - 1) with hcs
    set inh := (((drawMany (L - 1) (r.next.1) r.next.2).2).nextMod 2).1 with hinh
    have hch : List.Chain' (· ≤ ·) (0 :: cs) := chain_zero_crossovers _ _
    have hle : ∀ x ∈ cs, x ≤ L := by
      intro x hx
      exact le_of_lt (lt_of_lt_of_le (oddCrossovers_lt_bound _ _ x hx) (Nat.sub_le L 1))
    have hmap := emitEdges_intervals (cutIvs 0 cs L) pg c inh
    refine ⟨emitEdges_child _ pg c inh, ?_, ?_⟩
    · have hpw := cutIvs_pairwise cs 0 L hch
      rw [← hmap] at hpw
      exact (List.pairwise_map.mp hpw).imp (fun h => h)
    · intro x
      have hcov := cutIvs_cover cs 0 L hch hle x
      rw [← hmap] at hcov
      simp only [List.mem_map] at hcov
      constructor
      · intro hx
        rcases hcov.mpr ⟨Nat.zero_le x, hx⟩ with ⟨p, ⟨e, he, hfe⟩, hpx⟩
        exact ⟨e, he, by rw [← hfe] at hpx; exact hpx⟩
      · intro ⟨e, he, hx⟩
        exact (hcov.mp ⟨(e.left, e.right), ⟨e, he, rfl⟩, hx⟩).2
  · intro t' pg' c' r'
    by_cases hi : (r'.nextMod 2).1 = 0
    · exact ⟨pg'.1, Or.inl rfl, by simp [addInheritancePathsFocal, hi, List.drop_left]⟩
    · exact ⟨pg'.2, Or.inr rfl, by simp [addInheritancePathsFocal, hi, List.drop_left]⟩

/-- C2 counterexample: the no-recombination variant, run on a fresh table
collection with the notebook's sequence length 50000, emits the single
edge (20000, 21000, parent, child) and genomic position 0 (which lies in
[0, sequence_length)) is covered by none of the produced edges, so the
edges of one call do not have union exactly [0, sequence_length). -/
theorem focal_not_full_partition :
    (addInheritancePathsFocal (Tables.empty 50000) (0, 1) 2 rngZero).1.edges =
      [⟨20000, 21000, 0, 2⟩] ∧
    ¬ ∃ e ∈ (addInheritancePathsFocal (Tables.empty 50000) (0, 1) 2 rngZero).1.edges,
        e.left ≤ 0 ∧ 0 < e.right := by
  constructor
  · rfl
  · intro ⟨e, he, hx⟩
    simp only [addInheritancePathsFocal, Tables.empty, Rng.nextMod, rngZero] at he
    norm_num at he
    rw [he] at hx
    exact absurd hx.1 (by norm_num [focalRegion])

/-! ### Ledger invariants maintained by the simulator -/

/-- Every edge references in-range nodes and its parent node is strictly
older than its child node. -/
def ValidEdges (t : Tables) : Prop :=
  ∀ e ∈ t.edges, e.parent < t.nodes.length ∧ e.child < t.nodes.length ∧
    timeOf t e.child < timeOf t e.parent

/-- Every entry of a population maps to in-range genome node ids born at
the given time. -/
def PopAt (t : Tables) (p : Pop) (time : Nat) : Prop :=
  ∀ x ∈ p, x.2.1 < t.nodes.length ∧ x.2.2 < t.nodes.length ∧
    timeOf t x.2.1 = time ∧ timeOf t x.2.2 = time

/-- Individual k owns exactly the two consecutive nodes 2k and 2k+1, and
both carry k as their individual reference. -/
def Lockstep (t : Tables) : Prop :=
  t.nodes.length = 2 * t.individuals.length ∧
  ∀ k, k < t.individuals.length →
    (nodeAt t (2 * k)).individual = (k : Int) ∧
    (nodeAt t (2 * k + 1)).individual = (k : Int)

theorem getElem?_append_two_a {α : Type} (l : List α) (a b : α) :
    (l ++ [a, b])[l.length]? = some a := by
  induction l with
  | nil => rfl
  | cons x xs ih => simpa using ih

theorem getElem?_append_two_b {α : Type} (l : List α) (a b : α) :
    (l ++ [a, b])[l.length + 1]? = some b := by
  induction l with
  | nil => rfl
  | cons x xs ih => simpa using ih

theorem nodeAt_of_nodes_append {t t' : Tables} {l : List Node}
    (h : t'.nodes = t.nodes ++ l) {n : Nat} (hn : n < t.nodes.length) :
    nodeAt t' n = nodeAt t n := by
  simp [nodeAt, h, List.getElem?_append, hn]

theorem timeOf_of_nodes_append {t t' : Tables} {l : List Node}
    (h : t'.nodes = t.nodes ++ l) {n : Nat} (hn : n < t.nodes.length) :
    timeOf t' n = timeOf t n := by
  simp [timeOf, nodeAt_of_nodes_append h hn]

theorem popAt_of_nodes_append {t t' : Tables} {l : List Node} {p : Pop} {time : Nat}
    (h : t'.nodes = t.nodes ++ l) (hp : PopAt t p time) : PopAt t' p time := by
  intro x hx
  obtain ⟨h1, h2, h3, h4⟩ := hp x hx
  have hlen : t.nodes.length ≤ t'.nodes.length := by simp [h]
  exact ⟨lt_of_lt_of_le h1 hlen, lt_of_lt_of_le h2 hlen,
    by rw [timeOf_of_nodes_append h h1]; exact h3,
    by rw [timeOf_of_nodes_append h h2]; exact h4⟩

theorem popLookup_spec (p : Pop) (k : Nat) (h : ∃ x ∈ p, x.1 = k) :
    ∃ x ∈ p, x.1 = k ∧ popLookup p k = x.2 := by
  induction p with
  | nil => simp at h
  | cons y ys ih =>
    obtain ⟨i, g⟩ := y
    by_cases hy : i = k
    · exact ⟨(i, g), by simp, hy, by simp [popLookup, hy]⟩
    · have h' : ∃ x ∈ ys, x.1 = k := by
        rcases h with ⟨x, hx, hxk⟩
        rcases List.mem_cons.mp hx with rfl | hmem
        · exact absurd hxk hy
        · exact ⟨x, hmem, hxk⟩
      rcases ih h' with ⟨x, hx, hxk, hlook⟩
      exact ⟨x, List.mem_cons_of_mem _ hx, hxk, by simp [popLookup, hy, hlook]⟩

theorem getD_mem_of_lt (l : List Nat) (i : Nat) (h : i < l.length) :
    l.getD i 0 ∈ l := by
  rw [List.getD_eq_getElem l 0 h]
  exact List.getElem_mem h

/-! ### Structural lemmas for the generation advancer -/

theorem addIP_nodes (t : Tables) (pg : Nat × Nat) (c : Nat) (r : Rng) :
    (addInheritancePaths t pg c r).1.nodes = t.nodes := rfl

theorem addIP_individuals (t : Tables) (pg : Nat × Nat) (c : Nat) (r : Rng) :
    (addInheritancePaths t pg c r).1.individuals = t.individuals := rfl

theorem addIP_edge_mem (t : Tables) (pg : Nat × Nat) (c : Nat) (r : Rng) :
    ∀ e ∈ (addInheritancePaths t pg c r).1.edges,
      e ∈ t.edges ∨ (e.child = c ∧ (e.parent = pg.1 ∨ e.parent = pg.2)) := by
  intro e he
  simp only [addInheritancePaths, List.mem_append] at he
  rcases he with h | h
  · exact Or.inl h
  · exact Or.inr ⟨emitEdges_child _ _ _ _ e h, emitEdges_parent _ _ _ _ e h⟩

theorem newPopChild_nodes (t : Tables) (time : Nat) (prev : Pop) (r : Rng) :
    (newPopChild t time prev r).2.1.nodes =
      t.nodes ++ [⟨time, (t.individuals.length : Int), false⟩,
                  ⟨time, (t.individuals.length : Int), false⟩] := rfl

theorem newPopChild_individuals (t : Tables) (time : Nat) (prev : Pop) (r : Rng) :
    ∃ ps : List Int, (newPopChild t time prev r).2.1.individuals =
      t.individuals ++ [⟨ps⟩] := ⟨_, rfl⟩

theorem newPopChild_child (t : Tables) (time : Nat) (prev : Pop) (r : Rng) :
    (newPopChild t time prev r).1 =
      (t.individuals.length, (t.nodes.length, t.nodes.length + 1)) := rfl

theorem newPopChild_edge_mem (t : Tables) (time : Nat) (prev : Pop) (r : Rng)
    (hne : prev ≠ []) :
    ∀ e ∈ (newPopChild t time prev r).2.1.edges,
      e ∈ t.edges ∨
      ∃ x ∈ prev, (e.parent = x.2.1 ∨ e.parent = x.2.2) ∧
        (e.child = t.nodes.length ∨ e.child = t.nodes.length + 1) := by
  intro e he
  have hkpos : 0 < (prev.map (·.1)).length := by
    rw [List.length_map]
    exact List.length_pos.mpr hne
  simp only [newPopChild] at he
  generalize hm : (prev.map (·.1)).getD ((r.nextMod (prev.map (·.1)).length).1) 0 = m at he
  generalize hf :
    (prev.map (·.1)).getD
      (((r.nextMod (prev.map (·.1)).length).2.nextMod (prev.map (·.1)).length).1) 0 = fa at he
  have hmmem : ∃ x ∈ prev, x.1 = m := by
    rw [← hm]
    have hlt : (r.nextMod (prev.map (·.1)).length).1 < (prev.map (·.1)).length :=
      Nat.mod_lt _ hkpos
    rcases List.mem_map.mp (getD_mem_of_lt _ _ hlt) with ⟨x, hx, hxe⟩
    exact ⟨x, hx, hxe⟩
  have hfmem : ∃ x ∈ prev, x.1 = fa := by
    rw [← hf]
    have hlt :
        ((r.nextMod (prev.map (·.1)).length).2.nextMod (prev.map (·.1)).length).1 <
          (prev.map (·.1)).length := Nat.mod_lt _ hkpos
    rcases List.mem_map.mp (getD_mem_of_lt _ _ hlt) with ⟨x, hx, hxe⟩
    exact ⟨x, hx, hxe⟩
  rcases popLookup_spec prev m hmmem with ⟨x1, hx1, _, hlook1⟩
  rcases popLookup_spec prev fa hfmem with ⟨x2, hx2, _, hlook2⟩
  rw [hlook1, hlook2] at he
  rcases addIP_edge_mem _ _ _ _ e he with he2 | hnew
  · rcases addIP_edge_mem _ _ _ _ e he2 with he3 | hnew
    · exact Or.inl he3
    · exact Or.inr ⟨x1, hx1, hnew.2, Or.inl hnew.1⟩
  · exact Or.inr ⟨x2, hx2, hnew.2, Or.inr hnew.1⟩

theorem nodeAt_append_two_a {t t' : Tables} {a b : Node}
    (h : t'.nodes = t.nodes ++ [a, b]) : nodeAt t' t.nodes.length = a := by
  show (t'.nodes[t.nodes.length]?).getD defaultNode = a
  rw [h, getElem?_append_two_a]
  rfl

theorem nodeAt_append_two_b {t t' : Tables} {a b : Node}
    (h : t'.nodes = t.nodes ++ [a, b]) : nodeAt t' (t.nodes.length + 1) = b := by
  show (t'.nodes[t.nodes.length + 1]?).getD defaultNode = b
  rw [h, getElem?_append_two_b]
  rfl

theorem newPopChild_timeOf_a (t : Tables) (time : Nat) (prev : Pop) (r : Rng) :
    timeOf (newPopChild t time prev r).2.1 t.nodes.length = time := by
  show (nodeAt (newPopChild t time prev r).2.1 t.nodes.length).time = time
  rw [nodeAt_append_two_a (newPopChild_nodes t time prev r)]

theorem newPopChild_timeOf_b (t : Tables) (time : Nat) (prev : Pop) (r : Rng) :
    timeOf (newPopChild t time prev r).2.1 (t.nodes.length + 1) = time := by
  show (nodeAt (newPopChild t time prev r).2.1 (t.nodes.length + 1)).time = time
  rw [nodeAt_append_two_b (newPopChild_nodes t time prev r)]

theorem newPopChild_validEdges (t : Tables) (time : Nat) (prev : Pop) (r : Rng)
    (hv : ValidEdges t) (hprev : PopAt t prev (time + 1)) (hne : prev ≠ []) :
    ValidEdges (newPopChild t time prev r).2.1 := by
  intro e he
  have hnodes := newPopChild_nodes t time prev r
  have hlen2 : (newPopChild t time prev r).2.1.nodes.length = t.nodes.length + 2 := by
    simp [hnodes]
  rcases newPopChild_edge_mem t time prev r hne e he with hold | ⟨x, hx, hpar, hch⟩
  · obtain ⟨h1, h2, h3⟩ := hv e hold
    refine ⟨by omega, by omega, ?_⟩
    rw [timeOf_of_nodes_append hnodes h1, timeOf_of_nodes_append hnodes h2]
    exact h3
  · obtain ⟨hx1, hx2, ht1, ht2⟩ := hprev x hx
    have hparT : timeOf (newPopChild t time prev r).2.1 e.parent = time + 1 := by
      rcases hpar with h | h <;> rw [h]
      · rw [timeOf_of_nodes_append hnodes hx1]; exact ht1
      · rw [timeOf_of_nodes_append hnodes hx2]; exact ht2
    have hchT : timeOf (newPopChild t time prev r).2.1 e.child = time := by
      rcases hch with h | h <;> rw [h]
      · exact newPopChild_timeOf_a t time prev r
      · exact newPopChild_timeOf_b t time prev r
    refine ⟨?_, ?_, ?_⟩
    · rcases hpar with h | h <;> rw [h] <;> omega
    · rcases hch with h | h <;> rw [h] <;> omega
    · rw [hparT, hchT]; omega

theorem lockstep_nodes_ind_append (t t' : Tables) (time : Nat) (ind : List Int)
    (flag : Bool)
    (hn : t'.nodes = t.nodes ++ [⟨time, (t.individuals.length : Int), flag⟩,
                                 ⟨time, (t.individuals.length : Int), flag⟩])
    (hi : t'.individuals = t.individuals ++ [⟨ind⟩])
    (hl : Lockstep t) : Lockstep t' := by
  obtain ⟨hlen, hk⟩ := hl
  have hlen' : t'.nodes.length = t.nodes.length + 2 := by simp [hn]
  have hilen' : t'.individuals.length = t.individuals.length + 1 := by simp [hi]
  constructor
  · omega
  · intro k hk'
    rw [hilen'] at hk'
    rcases Nat.lt_or_ge k t.individuals.length with hlt | hge
    · have hold := hk k hlt
      have h2k : 2 * k < t.nodes.length := by omega
      have h2k1 : 2 * k + 1 < t.nodes.length := by omega
      rw [nodeAt_of_nodes_append hn h2k, nodeAt_of_nodes_append hn h2k1]
      exact hold
    · have hkeq : k = t.individuals.length := by omega
      subst hkeq
      have h2k : 2 * t.individuals.length = t.nodes.length := hlen.symm
      constructor
      · rw [nodeAt, hn, h2k, getElem?_append_two_a]; rfl
      · rw [nodeAt, hn, h2k, getElem?_append_two_b]; rfl

theorem newPopChild_lockstep (t : Tables) (time : Nat) (prev : Pop) (r : Rng)
    (hl : Lockstep t) : Lockstep (newPopChild t time prev r).2.1 := by
  obtain ⟨ps, hi⟩ := newPopChild_individuals t time prev r
  exact lockstep_nodes_ind_append t _ time ps false (newPopChild_nodes t time prev r) hi hl

theorem newPopAux_spec : ∀ (count : Nat) (t : Tables) (time : Nat) (prev acc : Pop) (r : Rng),
    ValidEdges t → PopAt t prev (time + 1) → PopAt t acc time → prev ≠ [] → Lockstep t →
    ValidEdges (newPopAux count t time prev acc r).2.1 ∧
    PopAt (newPopAux count t time prev acc r).2.1 (newPopAux count t time prev acc r).1 time ∧
    Lockstep (newPopAux count t time prev acc r).2.1 ∧
    (newPopAux count t time prev acc r).1.length = acc.length + count := by
  intro count
  induction count with
  | zero => intro t time prev acc r hv hprev hacc hne hl; exact ⟨hv, hacc, hl, rfl⟩
  | succ n ih =>
    intro t time prev acc r hv hprev hacc hne hl
    have hnodes := newPopChild_nodes t time prev r
    have hv' := newPopChild_validEdges t time prev r hv hprev hne
    have hl' := newPopChild_lockstep t time prev r hl
    have hprev' : PopAt (newPopChild t time prev r).2.1 prev (time + 1) :=
      popAt_of_nodes_append hnodes hprev
    have hacc' : PopAt (newPopChild t time prev r).2.1
        (acc ++ [(newPopChild t time prev r).1]) time := by
      intro x hx
      rcases List.mem_append.mp hx with hxa | hxc
      · exact popAt_of_nodes_append hnodes hacc x hxa
      · have hxe : x = (newPopChild t time prev r).1 := by simpa using hxc
        subst hxe
        rw [newPopChild_child]
        have hlen2 : (newPopChild t time prev r).2.1.nodes.length = t.nodes.length + 2 := by
          simp [hnodes]
        refine ⟨?_, ?_, ?_, ?_⟩
        · show t.nodes.length < (newPopChild t time prev r).2.1.nodes.length
          omega
        · show t.nodes.length + 1 < (newPopChild t time prev r).2.1.nodes.length
          omega
        · exact newPopChild_timeOf_a t time prev r
        · exact newPopChild_timeOf_b t time prev r
    have := ih (newPopChild t time prev r).2.1 time prev
      (acc ++ [(newPopChild t time prev r).1]) (newPopChild t time prev r).2.2
      hv' hprev' hacc' hne hl'
    simp only [newPopAux]
    refine ⟨this.1, this.2.1, this.2.2.1, ?_⟩
    rw [this.2.2.2]
    simp
    omega

theorem simLoop_spec (popSize : Nat) : ∀ (g : Nat) (t : Tables) (p : Pop) (r : Rng),
    ValidEdges t → PopAt t p g → p.length = popSize → Lockstep t →
    ValidEdges (simLoop popSize g t p r).1 ∧ Lockstep (simLoop popSize g t p r).1 := by
  intro g
  induction g with
  | zero => intro t p r hv _ _ hl; exact ⟨hv, hl⟩
  | succ g ih =>
    intro t p r hv hp hplen hl
    rcases Nat.eq_zero_or_pos popSize with h0 | hpos
    · subst h0
      have hpnil : p = [] := List.length_eq_zero.mp hplen
      subst hpnil
      simp only [simLoop, newPop, newPopAux]
      exact ih t [] r hv (fun x hx => absurd hx (List.not_mem_nil x)) rfl hl
    · have hne : p ≠ [] := by
        intro hnil; rw [hnil] at hplen; simp at hplen; omega
      have hspec := newPopAux_spec popSize t g p [] r hv hp
        (fun x hx => absurd hx (List.not_mem_nil x)) hne hl
      simp only [simLoop, newPop]
      exact ih _ _ _ hspec.1 hspec.2.1 (by rw [hspec.2.2.2]; simp) hspec.2.2.1

theorem initialisePopAux_spec : ∀ (count : Nat) (t : Tables) (time : Nat) (acc : Pop),
    ValidEdges t → PopAt t acc time → Lockstep t →
    ValidEdges (initialisePopAux count t time acc).2 ∧
    PopAt (initialisePopAux count t time acc).2 (initialisePopAux count t time acc).1 time ∧
    Lockstep (initialisePopAux count t time acc).2 ∧
    (initialisePopAux count t time acc).1.length = acc.length + count := by
  intro count
  induction count with
  | zero => intro t time acc hv hacc hl; exact ⟨hv, hacc, hl, rfl⟩
  | succ n ih =>
    intro t time acc hv hacc hl
    have hnodes : (makeDiploid t time []).2.nodes =
        t.nodes ++ [⟨time, (t.individuals.length : Int), false⟩,
                    ⟨time, (t.individuals.length : Int), false⟩] := rfl
    have hedges : (makeDiploid t time []).2.edges = t.edges := rfl
    have hv' : ValidEdges (makeDiploid t time []).2 := by
      intro e he
      rw [hedges] at he
      obtain ⟨h1, h2, h3⟩ := hv e he
      have hlen : t.nodes.length ≤ (makeDiploid t time []).2.nodes.length := by
        rw [hnodes]; simp
      refine ⟨by omega, by omega, ?_⟩
      rw [timeOf_of_nodes_append hnodes h1, timeOf_of_nodes_append hnodes h2]
      exact h3
    have hl' : Lockstep (makeDiploid t time []).2 :=
      lockstep_nodes_ind_append t _ time [] false hnodes rfl hl
    have hacc' : PopAt (makeDiploid t time []).2 (acc ++ [(makeDiploid t time []).1]) time := by
      intro x hx
      rcases List.mem_append.mp hx with hxa | hxc
      · exact popAt_of_nodes_append hnodes hacc x hxa
      · have hxe : x = (makeDiploid t time []).1 := by simpa using hxc
        subst hxe
        have hlen2 : (makeDiploid t time []).2.nodes.length = t.nodes.length + 2 := by
          rw [hnodes]; simp
        refine ⟨?_, ?_, ?_, ?_⟩
        · show t.nodes.length < (makeDiploid t time []).2.nodes.length
          omega
        · show t.nodes.length + 1 < (makeDiploid t time []).2.nodes.length
          omega
        · show (nodeAt (makeDiploid t time []).2 t.nodes.length).time = time
          rw [nodeAt_append_two_a hnodes]
        · show (nodeAt (makeDiploid t time []).2 (t.nodes.length + 1)).time = time
          rw [nodeAt_append_two_b hnodes]
    have := ih (makeDiploid t time []).2 time (acc ++ [(makeDiploid t time []).1])
      hv' hacc' hl'
    simp only [initialisePopAux]
    refine ⟨this.1, this.2.1, this.2.2.1, ?_⟩
    rw [this.2.2.2]
    simp
    omega

theorem mem_insertEdge (t : Tables) (e x : Edge) (l : List Edge) :
    x ∈ insertEdge t e l ↔ x = e ∨ x ∈ l := by
  induction l with
  | nil => simp [insertEdge]
  | cons y ys ih =>
    by_cases h : edgeLe t e y
    · simp [insertEdge, h]
    · simp [insertEdge, h, ih]
      tauto

theorem mem_sortEdgeList (t : Tables) (l : List Edge) (x : Edge) :
    x ∈ sortEdgeList t l ↔ x ∈ l := by
  induction l with
  | nil => simp [sortEdgeList]
  | cons y ys ih => simp [sortEdgeList, mem_insertEdge, ih]

theorem validEdges_sortTables (t : Tables) (hv : ValidEdges t) :
    ValidEdges (sortTables t) := by
  intro e he
  have hmem : e ∈ t.edges := (mem_sortEdgeList t t.edges e).mp he
  exact hv e hmem

/-- C3: in every ledger generated by the simulator, every edge references
existing nodes and its parent node's birth time is strictly greater than
its child node's birth time — for every population size, sequence length,
generation count and random stream. -/
theorem simpleDiploidSim_time_monotonic (N L G : Nat) (r : Rng) :
    ∀ e ∈ (simpleDiploidSim N L G r).edges,
      e.parent < (simpleDiploidSim N L G r).nodes.length ∧
      e.child < (simpleDiploidSim N L G r).nodes.length ∧
      timeOf (simpleDiploidSim N L G r) e.child <
        timeOf (simpleDiploidSim N L G r) e.parent := by
  have hv0 : ValidEdges (Tables.empty L) := by
    intro e he; simp [Tables.empty] at he
  have hl0 : Lockstep (Tables.empty L) := by
    refine ⟨rfl, ?_⟩; intro k hk; simp [Tables.empty] at hk
  have hinit := initialisePopAux_spec N (Tables.empty L) G []
    hv0 (fun x hx => absurd hx (List.not_mem_nil x)) hl0
  have hloop := simLoop_spec N G (initialisePop N (Tables.empty L) G).2
    (initialisePop N (Tables.empty L) G).1 r hinit.1 hinit.2.1
    (by show List.length (initialisePopAux N (Tables.empty L) G []).1 = N
        rw [hinit.2.2.2]; simp) hinit.2.2.1
  exact validEdges_sortTables _ hloop.1

theorem simpleDiploidSim_time_monotonic_witness :
    ((⟨0, 2, 0, 2⟩ : Edge) ∈ (simpleDiploidSim 1 2 1 rngZero).edges) ∧
    ((⟨0, 2, 0, 2⟩ : Edge).parent < (simpleDiploidSim 1 2 1 rngZero).nodes.length ∧
     (⟨0, 2, 0, 2⟩ : Edge).child < (simpleDiploidSim 1 2 1 rngZero).nodes.length ∧
     timeOf (simpleDiploidSim 1 2 1 rngZero) (⟨0, 2, 0, 2⟩ : Edge).child <
       timeOf (simpleDiploidSim 1 2 1 rngZero) (⟨0, 2, 0, 2⟩ : Edge).parent) :=
  ⟨by decide, simpleDiploidSim_time_monotonic 1 2 1 rngZero ⟨0, 2, 0, 2⟩ (by decide)⟩

/-- C10: in the un-compacted ledger produced by the simulator, the node
table holds exactly two rows per individual row, and individual k owns
precisely nodes 2k and 2k+1, both of which carry k as their individual
reference — for every population size, sequence length, generation count
and random stream. -/
theorem simpleDiploidSim_lockstep (N L G : Nat) (r : Rng) :
    (simpleDiploidSim N L G r).nodes.length =
      2 * (simpleDiploidSim N L G r).individuals.length ∧
    ∀ k, k < (simpleDiploidSim N L G r).individuals.length →
      (nodeAt (simpleDiploidSim N L G r) (2 * k)).individual = (k : Int) ∧
      (nodeAt (simpleDiploidSim N L G r) (2 * k + 1)).individual = (k : Int) := by
  have hv0 : ValidEdges (Tables.empty L) := by
    intro e he; simp [Tables.empty] at he
  have hl0 : Lockstep (Tables.empty L) := by
    refine ⟨rfl, ?_⟩; intro k hk; simp [Tables.empty] at hk
  have hinit := initialisePopAux_spec N (Tables.empty L) G []
    hv0 (fun x hx => absurd hx (List.not_mem_nil x)) hl0
  have hloop := simLoop_spec N G (initialisePop N (Tables.empty L) G).2
    (initialisePop N (Tables.empty L) G).1 r hinit.1 hinit.2.1
    (by show List.length (initialisePopAux N (Tables.empty L) G []).1 = N
        rw [hinit.2.2.2]; simp) hinit.2.2.1
  exact hloop.2

/-! ### Driver and first-version advancer: claim theorems -/

/-- C8 counterexample: a negative cadence (simplification_interval = -1)
passes the only configuration-time computation touching the cadence
(`simplify_modulo = generations % simplification_interval`) without any
error: Python floor-mod accepts negative divisors, so cadence ≤ 0 is NOT
rejected at configuration time as claimed. -/
theorem negative_cadence_not_rejected :
    simplifyModulo 100 (some (-1)) = Except.ok 0 := by rfl

/-- C8 (amended): computing simplify_modulo rejects a missing cadence
(None, the unhandled never/final-only setting) with TypeError and a zero
cadence with ZeroDivisionError, both before any generation is simulated,
but accepts every nonzero cadence including negative ones — negative
cadences are not rejected at configuration time. -/
theorem cadence_check_behaviour (g : Nat) (i : Int) :
    simplifyModulo g none = Except.error PyError.typeError ∧
    simplifyModulo g (some 0) = Except.error PyError.zeroDivisionError ∧
    (i ≠ 0 → ∃ m : Int, simplifyModulo g (some i) = Except.ok m) := by
  refine ⟨rfl, rfl, ?_⟩
  intro hi
  exact ⟨Int.fmod g i, by simp [simplifyModulo, hi]⟩

theorem cadence_check_behaviour_witness :
    ((-1 : Int) ≠ 0) ∧ ∃ m : Int, simplifyModulo 100 (some (-1)) = Except.ok m :=
  ⟨by decide, (cadence_check_behaviour 100 (-1)).2.2 (by decide)⟩

/-- C5 (code defect): on the notebook's own valid configuration
(cohort size 6, 100 generations, cadence 25), diploid_sim raises TypeError
before any generation is run — initialise_pop is defined with two
parameters but diploid_sim calls it with three — so the run never reaches
its final generation and the final compaction never occurs. -/
theorem diploidSim_raises_before_first_generation :
    diploidSim 6 100 (some 25) rngZero = Except.error PyError.typeError := by rfl

/-- C1 (code defect): on the notebook's own cadence-invariance test
configuration (cohort size 50, 500 generations), diploid_sim raises
TypeError at the initialise_pop call both with cadence 1 and with cadence
500, so no final simplified ledger is produced at any cadence and the
cadence-invariance property has no runs to relate. -/
theorem diploidSim_cadence_runs_raise :
    diploidSim 50 500 (some 1) rngZero = Except.error PyError.typeError ∧
    diploidSim 50 500 (some 500) rngZero = Except.error PyError.typeError := by
  exact ⟨by rfl, by rfl⟩

/-- Random stream driving the C6 counterexample run: per child the
first-version advancer consumes six draws; this stream makes the first
recorded draw pair pick individual 0 twice and the second (used) draw pair
pick individual 1 twice. -/
def rngC6 : Rng := ⟨fun n => if n % 6 < 2 then 0 else if n % 6 < 4 then 1 else 0, 0⟩

/-- The tables after one founding generation (time 1) and one advanced
generation (time 0) of the first-version simulator, cohort size 6, under
the C6 stream. -/
def c6Run : Pop × Tables × Rng :=
  newPopulation 6 ((newPopulation 6 (Tables.empty 50000) 1 [] rngC6).2.1) 0
    ((newPopulation 6 (Tables.empty 50000) 1 [] rngC6).1)
    ((newPopulation 6 (Tables.empty 50000) 1 [] rngC6).2.2)

/-- C6 (code defect): in the first-version new_population, the parents
recorded in the individual table and the parents used for the inheritance
paths come from two independent draws.  Under the C6 stream, the first
child individual (id 6, genomes 12 and 13) records parents [0, 0], whose
genomes are 0 and 1, yet its first inheritance edge draws from genome 2 —
a genome of individual 1 — so the recorded parents are not the individuals
whose genomes were passed to the inheritance path generator. -/
theorem newPopulation_parent_mismatch :
    (c6Run.2.1.individuals.getD 6 ⟨[]⟩).parents = [(0 : Int), 0] ∧
    c6Run.2.1.edges.getD 0 ⟨0, 0, 0, 0⟩ = ⟨20000, 21000, 2, 12⟩ ∧
    popLookup c6Run.1 6 = (12, 13) ∧
    popLookup ((newPopulation 6 (Tables.empty 50000) 1 [] rngC6).1) 0 = (0, 1) ∧
    ((2 : Nat) ≠ 0 ∧ (2 : Nat) ≠ 1) := by
  refine ⟨?_, ?_, ?_, ?_, by decide, by decide⟩ <;> decide

/-! ### Compactor (Simplifier)

Modelled from the spec: the repository's simplify calls delegate to the
external tskit library (`tables.simplify` / `ts.simplify`), whose
implementation is not part of this repository, so the Compactor is
modelled from §4.4 of the specification: retain exactly the nodes and
edges on a lineage path between some sample and a root (the keep-unary /
keep-input-roots retention), and assign new sequential identifiers with
the given samples first (in their given order, ids 0..k-1) followed by the
remaining surviving nodes ordered from youngest to oldest; individual
references are filtered and remapped alongside.  `simplifyNoFilter` is the
filter_nodes=False diagnostic mode: the node table is kept in place (the
node identifier mapping is the identity), sample flags follow the given
sample list, and only edges are pruned. -/

/-- One upward closure step: add the parents of all edges whose child is
already ancestral. -/
def expand (es : List Edge) (s : List Nat) : List Nat :=
  s ++ (es.filter (fun e => decide (e.child ∈ s))).map (·.parent)

/-- k-fold upward closure of the sample set. -/
def reachN (es : List Edge) (s : List Nat) : Nat → List Nat
  | 0 => s
  | k + 1 => expand es (reachN es s k)

/-- The largest birth time in the node table (an upper bound on the length
of any strictly-time-increasing lineage path). -/
def Tables.maxTime (t : Tables) : Nat :=
  t.nodes.foldr (fun n acc => max n.time acc) 0

/-- A node is retained when it is a sample or an ancestor of a sample. -/
def retainedB (t : Tables) (samples : List Nat) (n : Nat) : Bool :=
  decide (n ∈ reachN t.edges samples t.maxTime)

/-- Youngest-first order on node ids, ties broken by id. -/
def lexLe (t : Tables) (m n : Nat) : Bool :=
  decide (timeOf t m < timeOf t n) ||
  (timeOf t m == timeOf t n && decide (m ≤ n))

/-- Insertion into a le-sorted list. -/
def insertLe (le : Nat → Nat → Bool) (x : Nat) : List Nat → List Nat
  | [] => [x]
  | y :: ys => if le x y then x :: y :: ys else y :: insertLe le x ys

/-- Insertion sort. -/
def sortLe (le : Nat → Nat → Bool) : List Nat → List Nat
  | [] => []
  | x :: xs => insertLe le x (sortLe le xs)

/-- Retained non-sample nodes, youngest first (ties by old id). -/
def retainedNonSamples (t : Tables) (S : List Nat) : List Nat :=
  sortLe (lexLe t) ((List.range t.nodes.length).filter
    (fun n => retainedB t S n && !(decide (n ∈ S))))

/-- The surviving old node ids in their new-identifier order: samples
first, then the remaining survivors youngest to oldest. -/
def nodeOrder (t : Tables) (S : List Nat) : List Nat :=
  S ++ retainedNonSamples t S

/-- First index of x, if present. -/
def idxOf : List Nat → Nat → Option Nat
  | [], _ => none
  | y :: ys, x => if y = x then some 0 else (idxOf ys x).map (· + 1)

/-- Old node id → new node id; -1 is the removed sentinel. -/
def nodeMapF (t : Tables) (S : List Nat) (n : Nat) : Int :=
  match idxOf (nodeOrder t S) n with
  | some j => (j : Int)
  | none => -1

/-- Old individual ids referenced by some surviving node, ascending. -/
def retainedInds (t : Tables) (S : List Nat) : List Nat :=
  (List.range t.individuals.length).filter
    (fun i => (nodeOrder t S).any (fun n => (nodeAt t n).individual == (i : Int)))

/-- Old individual reference → new individual reference (-1 kept, removed
individuals map to -1). -/
def indMapF (t : Tables) (S : List Nat) (i : Int) : Int :=
  if i < 0 then -1 else
    match idxOf (retainedInds t S) i.toNat with
    | some j => (j : Int)
    | none => -1

/-- The node row written for surviving old node n: time kept, individual
reference remapped, sample flag set exactly for the given samples. -/
def renode (t : Tables) (S : List Nat) (n : Nat) : Node :=
  ⟨(nodeAt t n).time, indMapF t S (nodeAt t n).individual, decide (n ∈ S)⟩

/-- The Compactor: reduced tables plus the old→new node id mapping. -/
def simplifyT (t : Tables) (S : List Nat) : Tables × (Nat → Int) :=
  (⟨t.sequenceLength,
    (nodeOrder t S).map (renode t S),
    (t.edges.filter (fun e => retainedB t S e.child)).map
      (fun e => ⟨e.left, e.right, (nodeMapF t S e.parent).toNat,
                 (nodeMapF t S e.child).toNat⟩),
    (retainedInds t S).map (fun i =>
      ⟨((t.individuals.getD i ⟨[]⟩).parents).map (indMapF t S)⟩)⟩,
   nodeMapF t S)

/-- The filter_nodes=False diagnostic mode: node table kept in place
(identity node mapping), sample flags updated, only edges pruned. -/
def simplifyNoFilter (t : Tables) (S : List Nat) : Tables × (Nat → Int) :=
  (⟨t.sequenceLength,
    (List.range t.nodes.length).map
      (fun n => ⟨(nodeAt t n).time, (nodeAt t n).individual, decide (n ∈ S)⟩),
    t.edges.filter (fun e => retainedB t S e.child),
    t.individuals⟩,
   fun n => if n < t.nodes.length then (n : Int) else -1)

/-- The sample nodes of a ledger (ascending ids), as ts.samples(). -/
def samplesOf (t : Tables) : List Nat :=
  (List.range t.nodes.length).filter (fun n => (nodeAt t n).isSample)

/-- The sample nodes born at a given time, as ts.samples(time=tm). -/
def samplesAtTime (t : Tables) (tm : Nat) : List Nat :=
  (List.range t.nodes.length).filter
    (fun n => (nodeAt t n).isSample && (nodeAt t n).time == tm)

/-- simplify_tables: sort, simplify against the samples, and rebuild the
population dictionary through the returned node mapping and the new
individual references of the simplified nodes. -/
def simplifyTables (t : Tables) (S : List Nat) (pop : Pop) : Tables × Pop :=
  let ts := sortTables t
  let res := simplifyT ts S
  (res.1,
   pop.map (fun x =>
     (((nodeAt res.1 ((res.2 x.2.1).toNat)).individual).toNat,
      ((res.2 x.2.1).toNat, (res.2 x.2.2).toNat))))

/-- The assertion inside simplify_tables: after the simplify call, for
every population entry the remapped first genome and the remapped second
genome carry the same new individual reference. -/
def simplifyTablesAssert (t : Tables) (S : List Nat) (pop : Pop) : Bool :=
  let ts := sortTables t
  let res := simplifyT ts S
  pop.all (fun x =>
    (nodeAt res.1 ((res.2 x.2.1).toNat)).individual ==
    (nodeAt res.1 ((res.2 x.2.2).toNat)).individual)

/-! ### Index, sorting and reachability lemmas for the Compactor -/

theorem idxOf_spec (x : Nat) : ∀ (l : List Nat) (i : Nat), idxOf l x = some i →
    i < l.length ∧ l[i]? = some x := by
  intro l
  induction l with
  | nil => intro i h; simp [idxOf] at h
  | cons y ys ih =>
    intro i h
    by_cases hy : y = x
    · simp only [idxOf, if_pos hy] at h
      cases h
      subst hy
      exact ⟨Nat.succ_pos _, by simp⟩
    · simp only [idxOf, if_neg hy] at h
      rcases Option.map_eq_some'.mp h with ⟨j, hj, hji⟩
      obtain ⟨hlt, hget⟩ := ih j hj
      subst hji
      exact ⟨by simpa using hlt, by simpa using hget⟩

theorem mem_idxOf (x : Nat) : ∀ (l : List Nat), x ∈ l → ∃ i, idxOf l x = some i := by
  intro l
  induction l with
  | nil => intro h; simp at h
  | cons y ys ih =>
    intro h
    by_cases hy : y = x
    · exact ⟨0, by simp [idxOf, hy]⟩
    · have hx : x ∈ ys := by
        rcases List.mem_cons.mp h with h' | h'
        · exact absurd h'.symm hy
        · exact h'
      rcases ih hx with ⟨i, hi⟩
      exact ⟨i + 1, by simp [idxOf, hy, hi]⟩

theorem idxOf_append_left (x : Nat) : ∀ (l l' : List Nat), x ∈ l →
    idxOf (l ++ l') x = idxOf l x := by
  intro l
  induction l with
  | nil => intro l' h; simp at h
  | cons y ys ih =>
    intro l' h
    by_cases hy : y = x
    · simp [idxOf, hy]
    · have hx : x ∈ ys := by
        rcases List.mem_cons.mp h with h' | h'
        · exact absurd h'.symm hy
        · exact h'
      simp [idxOf, hy, ih l' hx]

theorem idxOf_nodup (x : Nat) : ∀ (l : List Nat), l.Nodup → ∀ (i : Nat),
    l[i]? = some x → idxOf l x = some i := by
  intro l
  induction l with
  | nil => intro _ i h; simp at h
  | cons y ys ih =>
    intro hnd i h
    cases i with
    | zero =>
      have : y = x := by simpa using h
      simp [idxOf, this]
    | succ i =>
      have hget : ys[i]? = some x := by simpa using h
      have hx : x ∈ ys := List.getElem?_mem hget
      have hy : y ≠ x := by
        intro hyx
        subst hyx
        exact (List.nodup_cons.mp hnd).1 hx
      simp [idxOf, hy, ih (List.nodup_cons.mp hnd).2 i hget]

theorem idxOf_range (n x : Nat) (h : x < n) : idxOf (List.range n) x = some x :=
  idxOf_nodup x (List.range n) (List.nodup_range n) x (List.getElem?_range h)

theorem perm_insertLe (le : Nat → Nat → Bool) (x : Nat) :
    ∀ (l : List Nat), List.Perm (insertLe le x l) (x :: l) := by
  intro l
  induction l with
  | nil => exact List.Perm.refl _
  | cons y ys ih =>
    by_cases h : le x y
    · simp [insertLe, h]
    · simp only [insertLe, if_neg h]
      exact List.Perm.trans (List.Perm.cons y ih) (List.Perm.swap x y ys)

theorem perm_sortLe (le : Nat → Nat → Bool) :
    ∀ (l : List Nat), List.Perm (sortLe le l) l := by
  intro l
  induction l with
  | nil => exact List.Perm.refl _
  | cons y ys ih =>
    exact List.Perm.trans (perm_insertLe le y (sortLe le ys)) (List.Perm.cons y ih)

theorem mem_sortLe (le : Nat → Nat → Bool) (l : List Nat) (x : Nat) :
    x ∈ sortLe le l ↔ x ∈ l := (perm_sortLe le l).mem_iff

theorem nodup_sortLe (le : Nat → Nat → Bool) (l : List Nat) (h : l.Nodup) :
    (sortLe le l).Nodup := (perm_sortLe le l).nodup_iff.mpr h

theorem sorted_insertLe (le : Nat → Nat → Bool)
    (htot : ∀ a b, le a b = true ∨ le b a = true)
    (htrans : ∀ a b c, le a b = true → le b c = true → le a c = true)
    (x : Nat) : ∀ (l : List Nat), List.Pairwise (fun a b => le a b = true) l →
    List.Pairwise (fun a b => le a b = true) (insertLe le x l) := by
  intro l
  induction l with
  | nil => intro _; simp [insertLe]
  | cons y ys ih =>
    intro hs
    rcases List.pairwise_cons.mp hs with ⟨hy, hys⟩
    by_cases h : le x y
    · simp only [insertLe, if_pos h]
      refine List.pairwise_cons.mpr ⟨?_, hs⟩
      intro z hz
      rcases List.mem_cons.mp hz with rfl | hz'
      · exact h
      · exact htrans x y z h (hy z hz')
    · have hyx : le y x = true := by
        rcases htot x y with h' | h'
        · exact absurd h' h
        · exact h'
      simp only [insertLe, if_neg h]
      refine List.pairwise_cons.mpr ⟨?_, ih hys⟩
      intro z hz
      have hz' : z ∈ x :: ys := (perm_insertLe le x ys).mem_iff.mp hz
      rcases List.mem_cons.mp hz' with rfl | hz''
      · exact hyx
      · exact hy z hz''

theorem sorted_sortLe (le : Nat → Nat → Bool)
    (htot : ∀ a b, le a b = true ∨ le b a = true)
    (htrans : ∀ a b c, le a b = true → le b c = true → le a c = true) :
    ∀ (l : List Nat), List.Pairwise (fun a b => le a b = true) (sortLe le l) := by
  intro l
  induction l with
  | nil => simp [sortLe]
  | cons y ys ih => exact sorted_insertLe le htot htrans y (sortLe le ys) ih

theorem sortLe_eq_self (le : Nat → Nat → Bool) :
    ∀ (l : List Nat), List.Pairwise (fun a b => le a b = true) l → sortLe le l = l := by
  intro l
  induction l with
  | nil => intro _; rfl
  | cons y ys ih =>
    intro hs
    rcases List.pairwise_cons.mp hs with ⟨hy, hys⟩
    show insertLe le y (sortLe le ys) = y :: ys
    rw [ih hys]
    cases ys with
    | nil => rfl
    | cons z zs => simp [insertLe, hy z (by simp)]

/-- x is reachable from the sample set by at most k upward steps. -/
def ReachIn (es : List Edge) (s : List Nat) : Nat → Nat → Prop
  | 0, x => x ∈ s
  | k + 1, x => ReachIn es s k x ∨ ∃ e ∈ es, e.parent = x ∧ ReachIn es s k e.child

theorem mem_expand (es : List Edge) (s : List Nat) (x : Nat) :
    x ∈ expand es s ↔ x ∈ s ∨ ∃ e ∈ es, e.parent = x ∧ e.child ∈ s := by
  simp only [expand, List.mem_append, List.mem_map, List.mem_filter,
    decide_eq_true_eq]
  constructor
  · rintro (h | ⟨e, ⟨he, hc⟩, hp⟩)
    · exact Or.inl h
    · exact Or.inr ⟨e, he, hp, hc⟩
  · rintro (h | ⟨e, he, hp, hc⟩)
    · exact Or.inl h
    · exact Or.inr ⟨e, ⟨he, hc⟩, hp⟩

theorem mem_reachN (es : List Edge) (s : List Nat) :
    ∀ (k x : Nat), x ∈ reachN es s k ↔ ReachIn es s k x := by
  intro k
  induction k with
  | zero => intro x; simp [reachN, ReachIn]
  | succ k ih =>
    intro x
    show x ∈ expand es (reachN es s k) ↔ _
    rw [mem_expand]
    constructor
    · rintro (h | ⟨e, he, hp, hc⟩)
      · exact Or.inl ((ih x).mp h)
      · exact Or.inr ⟨e, he, hp, (ih e.child).mp hc⟩
    · rintro (h | ⟨e, he, hp, hc⟩)
      · exact Or.inl ((ih x).mpr h)
      · exact Or.inr ⟨e, he, hp, (ih e.child).mpr hc⟩

theorem reachIn_mono (es : List Edge) (s : List Nat) :
    ∀ {k j : Nat}, j ≤ k → ∀ x, ReachIn es s j x → ReachIn es s k x := by
  intro k
  induction k with
  | zero =>
    intro j h x hx
    have : j = 0 := Nat.le_zero.mp h
    subst this
    exact hx
  | succ k ih =>
    intro j h x hx
    rcases Nat.lt_or_ge j (k + 1) with hlt | hge
    · exact Or.inl (ih (Nat.lt_succ_iff.mp hlt) x hx)
    · have : j = k + 1 := le_antisymm h hge
      subst this
      exact hx

theorem reachIn_time (es : List Edge) (s : List Nat) (τ : Nat → Nat)
    (hτ : ∀ e ∈ es, τ e.child < τ e.parent) :
    ∀ (k x : Nat), ReachIn es s k x → ReachIn es s (τ x) x := by
  intro k
  induction k with
  | zero => intro x hx; exact reachIn_mono es s (Nat.zero_le _) x hx
  | succ k ih =>
    intro x hx
    rcases hx with hx | ⟨e, he, hpar, hch⟩
    · exact ih x hx
    · have hc := ih e.child hch
      have hstep : ReachIn es s (τ e.child + 1) x := Or.inr ⟨e, he, hpar, hc⟩
      have hle : τ e.child + 1 ≤ τ x := by
        rw [← hpar]
        exact hτ e he
      exact reachIn_mono es s hle x hstep

theorem time_le_foldr (l : List Node) :
    ∀ nd ∈ l, nd.time ≤ l.foldr (fun n acc => max n.time acc) 0 := by
  induction l with
  | nil => intro nd h; simp at h
  | cons x xs ih =>
    intro nd h
    rcases List.mem_cons.mp h with rfl | h'
    · exact le_max_left _ _
    · exact le_trans (ih nd h') (le_max_right _ _)

theorem timeOf_le_maxTime (t : Tables) (x : Nat) : timeOf t x ≤ t.maxTime := by
  show (nodeAt t x).time ≤ t.maxTime
  unfold nodeAt Tables.maxTime
  cases h : t.nodes[x]? with
  | none => simp [defaultNode]
  | some nd =>
    have hmem : nd ∈ t.nodes := List.getElem?_mem h
    simpa using time_le_foldr t.nodes nd hmem

theorem retainedB_iff (t : Tables) (S : List Nat)
    (hτ : ∀ e ∈ t.edges, timeOf t e.child < timeOf t e.parent) (x : Nat) :
    retainedB t S x = true ↔ ∃ k, ReachIn t.edges S k x := by
  constructor
  · intro h
    exact ⟨t.maxTime, (mem_reachN t.edges S t.maxTime x).mp (of_decide_eq_true h)⟩
  · intro ⟨k, hk⟩
    have h1 := reachIn_time t.edges S (timeOf t) hτ k x hk
    have h2 := reachIn_mono t.edges S (timeOf_le_maxTime t x) x h1
    exact decide_eq_true ((mem_reachN t.edges S t.maxTime x).mpr h2)

theorem retainedB_of_mem (t : Tables) (S : List Nat) (x : Nat) (h : x ∈ S) :
    retainedB t S x = true := by
  have : ReachIn t.edges S 0 x := h
  exact decide_eq_true ((mem_reachN t.edges S t.maxTime x).mpr
    (reachIn_mono t.edges S (Nat.zero_le _) x this))

theorem retainedB_parent (t : Tables) (S : List Nat)
    (hτ : ∀ e ∈ t.edges, timeOf t e.child < timeOf t e.parent)
    (e : Edge) (he : e ∈ t.edges) (hc : retainedB t S e.child = true) :
    retainedB t S e.parent = true := by
  rcases (retainedB_iff t S hτ e.child).mp hc with ⟨k, hk⟩
  exact (retainedB_iff t S hτ e.parent).mpr ⟨k + 1, Or.inr ⟨e, he, rfl, hk⟩⟩

theorem nodeMapF_sample (t : Tables) (S : List Nat) (n : Nat) (h : n ∈ S) :
    ∃ i, idxOf S n = some i ∧ nodeMapF t S n = (i : Int) ∧ i < S.length := by
  rcases mem_idxOf n S h with ⟨i, hi⟩
  refine ⟨i, hi, ?_, (idxOf_spec n S i hi).1⟩
  unfold nodeMapF nodeOrder
  rw [idxOf_append_left n S _ h, hi]

theorem simplifyT_nodeAt (t : Tables) (S : List Nat) (j n : Nat)
    (h : (nodeOrder t S)[j]? = some n) :
    nodeAt (simplifyT t S).1 j = renode t S n := by
  show (((nodeOrder t S).map (renode t S))[j]?).getD defaultNode = renode t S n
  rw [List.getElem?_map, h]
  rfl

theorem simplify_sample_individual (t : Tables) (S : List Nat) (n : Nat) (h : n ∈ S) :
    (nodeAt (simplifyT t S).1 ((nodeMapF t S n).toNat)).individual =
      indMapF t S (nodeAt t n).individual := by
  rcases nodeMapF_sample t S n h with ⟨i, hi, hmap, hlt⟩
  rw [hmap]
  have hget : (nodeOrder t S)[i]? = some n := by
    unfold nodeOrder
    rw [List.getElem?_append_left hlt]
    exact (idxOf_spec n S i hi).2
  rw [Int.toNat_ofNat, simplifyT_nodeAt t S i n hget]
  rfl

/-- C7: after a compaction whose sample set contains the genomes of the
pre-compaction population, every population entry whose two genomes share
one individual maps to two nodes carrying the same new individual
reference: the assertion inside simplify_tables always holds.  The two
hypotheses are invariants of the simulator: the cohort genomes are the
samples passed to the compaction, and each entry's two genomes belong to
one individual. -/
theorem simplify_never_splits_individuals (t : Tables) (S : List Nat) (pop : Pop)
    (hS : ∀ x ∈ pop, x.2.1 ∈ S ∧ x.2.2 ∈ S)
    (hind : ∀ x ∈ pop, (nodeAt t x.2.1).individual = (nodeAt t x.2.2).individual) :
    simplifyTablesAssert t S pop = true := by
  unfold simplifyTablesAssert
  rw [List.all_eq_true]
  intro x hx
  obtain ⟨h1, h2⟩ := hS x hx
  have e1 := simplify_sample_individual (sortTables t) S x.2.1 h1
  have e2 := simplify_sample_individual (sortTables t) S x.2.2 h2
  have hnodes : nodeAt (sortTables t) x.2.1 = nodeAt t x.2.1 := rfl
  have hnodes2 : nodeAt (sortTables t) x.2.2 = nodeAt t x.2.2 := rfl
  show ((nodeAt (simplifyT (sortTables t) S).1
      ((nodeMapF (sortTables t) S x.2.1).toNat)).individual ==
    (nodeAt (simplifyT (sortTables t) S).1
      ((nodeMapF (sortTables t) S x.2.2).toNat)).individual) = true
  rw [e1, e2, hnodes, hnodes2, hind x hx]
  exact beq_self_eq_true _

/-- Concrete two-genome, one-individual ledger used to instantiate C7. -/
def c7Tables : Tables := ⟨10, [⟨0, 0, true⟩, ⟨0, 0, true⟩], [], [⟨[]⟩]⟩

theorem simplify_never_splits_witness :
    (∀ x ∈ [((0 : Nat), ((0 : Nat), (1 : Nat)))], x.2.1 ∈ [0, 1] ∧ x.2.2 ∈ [(0 : Nat), 1]) ∧
    (∀ x ∈ [((0 : Nat), ((0 : Nat), (1 : Nat)))],
      (nodeAt c7Tables x.2.1).individual = (nodeAt c7Tables x.2.2).individual) ∧
    simplifyTablesAssert c7Tables [0, 1] [(0, (0, 1))] = true :=
  ⟨by decide, by decide,
   simplify_never_splits_individuals c7Tables [0, 1] [(0, (0, 1))]
     (by decide) (by decide)⟩

/-! ### The concrete one-generation simplify scenario (C9) -/

/-- Deterministic all-zero random stream for the C9 scenario. -/
def rngC9 : Rng := ⟨fun _ => 0, 0⟩

/-- The sorted ledger of the first-version simulator after its founding
generation (time 1) and one advanced generation (time 0), cohort size 6:
24 nodes (12 per generation, all flagged as samples) and 12 focal edges. -/
def c9Tables : Tables :=
  sortTables ((newPopulation 6 ((newPopulation 6 (Tables.empty 50000) 1 [] rngC9).2.1) 0
    ((newPopulation 6 (Tables.empty 50000) 1 [] rngC9).1)
    ((newPopulation 6 (Tables.empty 50000) 1 [] rngC9).2.2)).2.1)

/-- The 12 time-0 sample genomes of the scenario ledger. -/
def c9Samples : List Nat := samplesAtTime c9Tables 0

/-- C9 counterexample: simplifying the one-generation cohort-size-6 ledger
on its 12 time-0 samples with keep_unary=True and filter_nodes=False does
NOT relabel the sample nodes to 0..11: the node mapping is the identity,
so the samples keep their original identifiers 12..23 — in particular the
first sample, node 12, maps to 12 and not to 0. -/
theorem simplifyNoFilter_keeps_ids :
    c9Samples = [12, 13, 14, 15, 16, 17, 18, 19, 20, 21, 22, 23] ∧
    (simplifyNoFilter c9Tables c9Samples).2 12 = 12 ∧ ¬ ((12 : Int) = 0) := by
  refine ⟨by decide, by decide, by decide⟩

/-- C9 (amended): simplifying the one-generation cohort-size-6 ledger on
its 12 time-0 samples with keep_unary=True and filter_nodes=False leaves
the node count unchanged, leaves every node identifier unchanged (the
node mapping is the identity on all 24 nodes; the relabeling of samples
to 0..11 belongs to the later filter_nodes=True call), and leaves the
edge count unchanged or reduced. -/
theorem simplifyNoFilter_scenario :
    (simplifyNoFilter c9Tables c9Samples).1.nodes.length = c9Tables.nodes.length ∧
    ((List.range c9Tables.nodes.length).map (simplifyNoFilter c9Tables c9Samples).2) =
      (List.range c9Tables.nodes.length).map (fun n => (n : Int)) ∧
    (simplifyNoFilter c9Tables c9Samples).1.edges.length ≤ c9Tables.edges.length := by
  refine ⟨by decide, by decide, by decide⟩

/-! ### Compaction idempotence: supporting lemmas -/

theorem tablesExt (a b : Tables) (h1 : a.sequenceLength = b.sequenceLength)
    (h2 : a.nodes = b.nodes) (h3 : a.edges = b.edges)
    (h4 : a.individuals = b.individuals) : a = b := by
  cases a
  cases b
  simp_all

theorem nodeAt_eq_getElem (t : Tables) (p : Nat) (hp : p < t.nodes.length) :
    nodeAt t p = t.nodes[p] := by
  unfold nodeAt
  rw [List.getElem?_eq_getElem hp]
  rfl

theorem lexLe_total (t : Tables) (a b : Nat) :
    lexLe t a b = true ∨ lexLe t b a = true := by
  simp only [lexLe, Bool.or_eq_true, Bool.and_eq_true, decide_eq_true_eq, beq_iff_eq]
  omega

theorem lexLe_trans (t : Tables) (a b c : Nat) :
    lexLe t a b = true → lexLe t b c = true → lexLe t a c = true := by
  simp only [lexLe, Bool.or_eq_true, Bool.and_eq_true, decide_eq_true_eq, beq_iff_eq]
  omega

theorem lexLe_time (t : Tables) (a b : Nat) (h : lexLe t a b = true) :
    timeOf t a ≤ timeOf t b := by
  simp only [lexLe, Bool.or_eq_true, Bool.and_eq_true, decide_eq_true_eq, beq_iff_eq] at h
  omega

theorem mem_retainedNonSamples (t : Tables) (S : List Nat) (n : Nat) :
    n ∈ retainedNonSamples t S ↔
      (n < t.nodes.length ∧ retainedB t S n = true ∧ n ∉ S) := by
  unfold retainedNonSamples
  rw [mem_sortLe, List.mem_filter, List.mem_range]
  simp only [Bool.and_eq_true, Bool.not_eq_true', decide_eq_false_iff_not]


theorem nodup_retainedNonSamples (t : Tables) (S : List Nat) :
    (retainedNonSamples t S).Nodup :=
  nodup_sortLe _ _ (List.Nodup.filter _ (List.nodup_range _))

theorem sorted_retainedNonSamples (t : Tables) (S : List Nat) :
    List.Pairwise (fun a b => lexLe t a b = true) (retainedNonSamples t S) :=
  sorted_sortLe (lexLe t) (lexLe_total t) (lexLe_trans t) _

theorem nodup_nodeOrder (t : Tables) (S : List Nat) (hnd : S.Nodup) :
    (nodeOrder t S).Nodup := by
  refine List.Nodup.append hnd (nodup_retainedNonSamples t S) ?_
  intro a ha ha'
  exact ((mem_retainedNonSamples t S a).mp ha').2.2 ha

theorem mem_nodeOrder_of_retained (t : Tables) (S : List Nat) (n : Nat)
    (hr : retainedB t S n = true) (hn : n < t.nodes.length) :
    n ∈ nodeOrder t S := by
  by_cases hS : n ∈ S
  · exact List.mem_append.mpr (Or.inl hS)
  · exact List.mem_append.mpr (Or.inr ((mem_retainedNonSamples t S n).mpr ⟨hn, hr, hS⟩))

theorem nodeMapF_retained (t : Tables) (S : List Nat) (n : Nat)
    (hr : retainedB t S n = true) (hn : n < t.nodes.length) :
    ∃ j, idxOf (nodeOrder t S) n = some j ∧ nodeMapF t S n = (j : Int) ∧
      j < (nodeOrder t S).length := by
  rcases mem_idxOf n _ (mem_nodeOrder_of_retained t S n hr hn) with ⟨j, hj⟩
  refine ⟨j, hj, ?_, (idxOf_spec n _ j hj).1⟩
  unfold nodeMapF
  rw [hj]

theorem simplifyT_nodes_length (t : Tables) (S : List Nat) :
    (simplifyT t S).1.nodes.length = (nodeOrder t S).length := by
  simp [simplifyT]

theorem simplifyT_inds_length (t : Tables) (S : List Nat) :
    (simplifyT t S).1.individuals.length = (retainedInds t S).length := by
  simp [simplifyT]

theorem validEdges_simplifyT (t : Tables) (S : List Nat) (hv : ValidEdges t) :
    ValidEdges (simplifyT t S).1 := by
  intro e' he'
  have hτ : ∀ e ∈ t.edges, timeOf t e.child < timeOf t e.parent :=
    fun e he => (hv e he).2.2
  rw [show (simplifyT t S).1.edges =
      (t.edges.filter (fun e => retainedB t S e.child)).map
        (fun e => ⟨e.left, e.right, (nodeMapF t S e.parent).toNat,
                   (nodeMapF t S e.child).toNat⟩) from rfl] at he'
  rw [List.mem_map] at he'
  rcases he' with ⟨e, hef, rfl⟩
  rw [List.mem_filter] at hef
  obtain ⟨he, hrc⟩ := hef
  obtain ⟨hp, hc, ht⟩ := hv e he
  have hrp := retainedB_parent t S hτ e he hrc
  rcases nodeMapF_retained t S e.parent hrp hp with ⟨jp, hjp, hmp, hjplt⟩
  rcases nodeMapF_retained t S e.child hrc hc with ⟨jc, hjc, hmc, hjclt⟩
  have hgp : (nodeOrder t S)[jp]? = some e.parent := (idxOf_spec _ _ _ hjp).2
  have hgc : (nodeOrder t S)[jc]? = some e.child := (idxOf_spec _ _ _ hjc).2
  refine ⟨?_, ?_, ?_⟩
  · show (nodeMapF t S e.parent).toNat < _
    rw [hmp, Int.toNat_ofNat, simplifyT_nodes_length]
    exact hjplt
  · show (nodeMapF t S e.child).toNat < _
    rw [hmc, Int.toNat_ofNat, simplifyT_nodes_length]
    exact hjclt
  · show timeOf _ (nodeMapF t S e.child).toNat < timeOf _ (nodeMapF t S e.parent).toNat
    rw [hmp, hmc, Int.toNat_ofNat, Int.toNat_ofNat]
    show (nodeAt (simplifyT t S).1 jc).time < (nodeAt (simplifyT t S).1 jp).time
    rw [simplifyT_nodeAt t S jp _ hgp, simplifyT_nodeAt t S jc _ hgc]
    exact ht

theorem filter_range_lt (k m : Nat) :
    (List.range (k + m)).filter (fun p => decide (p < k)) = List.range k := by
  induction m with
  | zero =>
    rw [Nat.add_zero]
    apply List.filter_eq_self.mpr
    intro a ha
    exact decide_eq_true (List.mem_range.mp ha)
  | succ m ih =>
    rw [Nat.add_succ, List.range_succ, List.filter_append, ih]
    simp

theorem filter_range_ge (k m : Nat) :
    (List.range (k + m)).filter (fun p => !decide (p < k)) =
      (List.range m).map (k + ·) := by
  induction m with
  | zero =>
    rw [Nat.add_zero]
    simp only [List.range_zero, List.map_nil]
    rw [List.filter_eq_nil_iff]
    intro a ha
    simp [List.mem_range.mp ha]
  | succ m ih =>
    rw [Nat.add_succ, List.range_succ, List.filter_append, ih, List.range_succ]
    simp

theorem range_append_map (k m : Nat) :
    List.range k ++ (List.range m).map (k + ·) = List.range (k + m) := by
  induction m with
  | zero => simp
  | succ m ih =>
    have h2 : List.range (k + (m + 1)) = List.range (k + m) ++ [k + m] := by
      rw [← Nat.add_assoc]
      exact List.range_succ _
    rw [List.range_succ, h2, List.map_append, ← List.append_assoc, ih]
    simp

theorem map_range_getD {α : Type} (l : List α) (d : α) :
    (List.range l.length).map (fun j => l.getD j d) = l := by
  apply List.ext_getElem
  · simp
  · intro n h1 h2
    rw [List.getElem_map, List.getElem_range, List.getD_eq_getElem l d h2]

theorem nodeOrder_getElem_left (t : Tables) (S : List Nat) (p : Nat) (hp : p < S.length) :
    (nodeOrder t S)[p]? = some (S.getD p 0) := by
  unfold nodeOrder
  rw [List.getElem?_append_left hp, List.getElem?_eq_getElem hp,
    List.getD_eq_getElem S 0 hp]

theorem nodeOrder_getElem_right (t : Tables) (S : List Nat) (i : Nat)
    (hi : i < (retainedNonSamples t S).length) :
    (nodeOrder t S)[S.length + i]? = some ((retainedNonSamples t S).getD i 0) := by
  unfold nodeOrder
  rw [List.getElem?_append_right (Nat.le_add_right _ _)]
  simp only [Nat.add_sub_cancel_left]
  rw [List.getElem?_eq_getElem hi, List.getD_eq_getElem _ 0 hi]

theorem simplifyT_isSample (t : Tables) (S : List Nat) (p : Nat)
    (hp : p < (nodeOrder t S).length) :
    (nodeAt (simplifyT t S).1 p).isSample = decide (p < S.length) := by
  rcases Nat.lt_or_ge p S.length with h | h
  · have hg := nodeOrder_getElem_left t S p h
    rw [simplifyT_nodeAt t S p _ hg]
    show decide ((S.getD p 0) ∈ S) = decide (p < S.length)
    rw [decide_eq_true (getD_mem_of_lt S p h), decide_eq_true h]
  · have hlen : (nodeOrder t S).length = S.length + (retainedNonSamples t S).length := by
      simp [nodeOrder]
    have hi : p - S.length < (retainedNonSamples t S).length := by omega
    have hg := nodeOrder_getElem_right t S (p - S.length) hi
    rw [show S.length + (p - S.length) = p from by omega] at hg
    rw [simplifyT_nodeAt t S p _ hg]
    show decide (_ ∈ S) = decide (p < S.length)
    have hmem := getD_mem_of_lt (retainedNonSamples t S) (p - S.length) hi
    have hnot : (retainedNonSamples t S).getD (p - S.length) 0 ∉ S :=
      ((mem_retainedNonSamples t S _).mp hmem).2.2
    rw [decide_eq_false hnot, decide_eq_false (by omega : ¬ p < S.length)]

theorem samplesOf_simplifyT (t : Tables) (S : List Nat) :
    samplesOf (simplifyT t S).1 = List.range S.length := by
  unfold samplesOf
  rw [simplifyT_nodes_length]
  have hK : (nodeOrder t S).length = S.length + (retainedNonSamples t S).length := by
    simp [nodeOrder]
  rw [hK, ← filter_range_lt S.length (retainedNonSamples t S).length]
  apply List.filter_congr
  intro p hp
  rw [List.mem_range, ← hK] at hp
  exact simplifyT_isSample t S p hp

theorem reachIn_simplifyT (t : Tables) (S : List Nat) (hv : ValidEdges t) :
    ∀ (j x p : Nat), ReachIn t.edges S j x → idxOf (nodeOrder t S) x = some p →
      ReachIn (simplifyT t S).1.edges (List.range S.length) j p := by
  intro j
  induction j with
  | zero =>
    intro x p hx hp
    show p ∈ List.range S.length
    rw [List.mem_range]
    unfold nodeOrder at hp
    rw [idxOf_append_left x S (retainedNonSamples t S) hx] at hp
    exact (idxOf_spec x S p hp).1
  | succ j ih =>
    intro x p hx hp
    rcases hx with hx | ⟨e, he, hpar, hch⟩
    · exact Or.inl (ih x p hx hp)
    · have hτ : ∀ e ∈ t.edges, timeOf t e.child < timeOf t e.parent :=
        fun e he => (hv e he).2.2
      have hrc : retainedB t S e.child = true :=
        (retainedB_iff t S hτ e.child).mpr ⟨j, hch⟩
      obtain ⟨_, hclt, _⟩ := hv e he
      rcases nodeMapF_retained t S e.child hrc hclt with ⟨pc, hpc, hmc, _⟩
      have hchild := ih e.child pc hch hpc
      refine Or.inr ⟨⟨e.left, e.right, (nodeMapF t S e.parent).toNat,
        (nodeMapF t S e.child).toNat⟩, ?_, ?_, ?_⟩
      · show _ ∈ (simplifyT t S).1.edges
        rw [show (simplifyT t S).1.edges =
            (t.edges.filter (fun e => retainedB t S e.child)).map
              (fun e => ⟨e.left, e.right, (nodeMapF t S e.parent).toNat,
                         (nodeMapF t S e.child).toNat⟩) from rfl]
        rw [List.mem_map]
        exact ⟨e, List.mem_filter.mpr ⟨he, hrc⟩, rfl⟩
      · show (nodeMapF t S e.parent).toNat = p
        rw [hpar]
        simp only [nodeMapF, hp]
        exact Int.toNat_ofNat p
      · show ReachIn _ _ j (nodeMapF t S e.child).toNat
        rw [hmc, Int.toNat_ofNat]
        exact hchild

theorem simplifyT_all_retained (t : Tables) (S : List Nat)
    (hv : ValidEdges t) (hnd : S.Nodup) :
    ∀ p, p < (nodeOrder t S).length →
      retainedB (simplifyT t S).1 (List.range S.length) p = true := by
  intro p hp
  have hτ : ∀ e ∈ t.edges, timeOf t e.child < timeOf t e.parent :=
    fun e he => (hv e he).2.2
  have hv1 := validEdges_simplifyT t S hv
  have hτ1 : ∀ e ∈ (simplifyT t S).1.edges,
      timeOf (simplifyT t S).1 e.child < timeOf (simplifyT t S).1 e.parent :=
    fun e he => (hv1 e he).2.2
  have hgp : (nodeOrder t S)[p]? = some ((nodeOrder t S)[p]) :=
    List.getElem?_eq_getElem hp
  have hidx : idxOf (nodeOrder t S) ((nodeOrder t S)[p]) = some p :=
    idxOf_nodup _ _ (nodup_nodeOrder t S hnd) p hgp
  have hmem : (nodeOrder t S)[p] ∈ S ++ retainedNonSamples t S :=
    List.getElem_mem hp
  have hone : ∃ jn, ReachIn t.edges S jn ((nodeOrder t S)[p]) := by
    rcases List.mem_append.mp hmem with hS | hrns
    · exact ⟨0, hS⟩
    · exact (retainedB_iff t S hτ _).mp
        ((mem_retainedNonSamples t S _).mp hrns).2.1
  rcases hone with ⟨jn, hjn⟩
  exact (retainedB_iff (simplifyT t S).1 (List.range S.length) hτ1 p).mpr
    ⟨jn, reachIn_simplifyT t S hv jn _ p hjn hidx⟩

theorem timeOf_simplifyT_nonsample (t : Tables) (S : List Nat) (i : Nat)
    (hi : i < (retainedNonSamples t S).length) :
    timeOf (simplifyT t S).1 (S.length + i) =
      timeOf t ((retainedNonSamples t S).getD i 0) := by
  show (nodeAt (simplifyT t S).1 (S.length + i)).time = _
  rw [simplifyT_nodeAt t S _ _ (nodeOrder_getElem_right t S i hi)]
  rfl

theorem retainedNonSamples_simplifyT (t : Tables) (S : List Nat)
    (hv : ValidEdges t) (hnd : S.Nodup) :
    retainedNonSamples (simplifyT t S).1 (List.range S.length) =
      (List.range (retainedNonSamples t S).length).map (S.length + ·) := by
  show sortLe (lexLe (simplifyT t S).1)
      ((List.range (simplifyT t S).1.nodes.length).filter
        (fun n => retainedB (simplifyT t S).1 (List.range S.length) n &&
          !(decide (n ∈ List.range S.length)))) = _
  rw [simplifyT_nodes_length]
  have hK : (nodeOrder t S).length = S.length + (retainedNonSamples t S).length := by
    simp [nodeOrder]
  have hcongr : (List.range (nodeOrder t S).length).filter
      (fun n => retainedB (simplifyT t S).1 (List.range S.length) n &&
        !(decide (n ∈ List.range S.length))) =
      (List.range (nodeOrder t S).length).filter (fun p => !decide (p < S.length)) := by
    apply List.filter_congr
    intro p hp
    rw [List.mem_range] at hp
    rw [simplifyT_all_retained t S hv hnd p hp]
    simp [List.mem_range]
  rw [hcongr, hK, filter_range_ge]
  apply sortLe_eq_self
  rw [List.pairwise_map, List.pairwise_iff_getElem]
  intro a b ha hb hab
  rw [List.getElem_range, List.getElem_range]
  have hm : b < (retainedNonSamples t S).length := by simpa using hb
  have ham : a < (retainedNonSamples t S).length := by
    have : a < (List.range (retainedNonSamples t S).length).length := ha
    simpa using this
  have hta := timeOf_simplifyT_nonsample t S a ham
  have htb := timeOf_simplifyT_nonsample t S b hm
  have hsorted := sorted_retainedNonSamples t S
  rw [List.pairwise_iff_getElem] at hsorted
  have hle := hsorted a b ham hm hab
  rw [List.getD_eq_getElem _ 0 ham] at hta
  rw [List.getD_eq_getElem _ 0 hm] at htb
  have htime := lexLe_time t _ _ hle
  simp only [lexLe, Bool.or_eq_true, Bool.and_eq_true, decide_eq_true_eq, beq_iff_eq]
  rw [hta, htb]
  omega

theorem nodeOrder_simplifyT (t : Tables) (S : List Nat)
    (hv : ValidEdges t) (hnd : S.Nodup) :
    nodeOrder (simplifyT t S).1 (List.range S.length) =
      List.range (nodeOrder t S).length := by
  show List.range S.length ++
      retainedNonSamples (simplifyT t S).1 (List.range S.length) = _
  rw [retainedNonSamples_simplifyT t S hv hnd, range_append_map]
  congr 1
  simp [nodeOrder]

theorem nodeMapF_simplifyT_id (t : Tables) (S : List Nat)
    (hv : ValidEdges t) (hnd : S.Nodup) (n : Nat) (hn : n < (nodeOrder t S).length) :
    nodeMapF (simplifyT t S).1 (List.range S.length) n = (n : Int) := by
  unfold nodeMapF
  rw [nodeOrder_simplifyT t S hv hnd, idxOf_range _ n hn]

theorem nodup_retainedInds (t : Tables) (S : List Nat) :
    (retainedInds t S).Nodup :=
  List.Nodup.filter _ (List.nodup_range _)

theorem indMapF_cases (t : Tables) (S : List Nat) (i : Int) :
    indMapF t S i = -1 ∨
    ∃ j, j < (retainedInds t S).length ∧ indMapF t S i = (j : Int) := by
  unfold indMapF
  by_cases h : i < 0
  · left
    simp [h]
  · rw [if_neg h]
    cases hj : idxOf (retainedInds t S) i.toNat with
    | none => left; rfl
    | some j => right; exact ⟨j, (idxOf_spec _ _ _ hj).1, rfl⟩

theorem retainedInds_simplifyT (t : Tables) (S : List Nat)
    (hv : ValidEdges t) (hnd : S.Nodup) :
    retainedInds (simplifyT t S).1 (List.range S.length) =
      List.range (retainedInds t S).length := by
  show (List.range (simplifyT t S).1.individuals.length).filter
      (fun (i : Nat) => (nodeOrder (simplifyT t S).1 (List.range S.length)).any
        (fun n => (nodeAt (simplifyT t S).1 n).individual == (i : Int))) = _
  rw [simplifyT_inds_length]
  apply List.filter_eq_self.mpr
  intro j hj
  rw [List.mem_range] at hj
  have hji : (retainedInds t S)[j]? = some ((retainedInds t S)[j]) :=
    List.getElem?_eq_getElem hj
  have himem : (retainedInds t S)[j] ∈ retainedInds t S := List.getElem_mem hj
  have hfilter := List.mem_filter.mp himem
  rw [List.any_eq_true] at hfilter
  rcases hfilter.2 with ⟨n, hn, hni⟩
  rw [beq_iff_eq] at hni
  rcases mem_idxOf n _ hn with ⟨p, hpidx⟩
  obtain ⟨hplt, hpget⟩ := idxOf_spec n _ p hpidx
  have hnode := simplifyT_nodeAt t S p n hpget
  have hmap : indMapF t S ((nodeAt t n).individual) = (j : Int) := by
    unfold indMapF
    rw [hni, if_neg (Int.not_lt.mpr (Int.natCast_nonneg _)), Int.toNat_ofNat,
      idxOf_nodup _ _ (nodup_retainedInds t S) j hji]
  rw [List.any_eq_true]
  refine ⟨p, ?_, ?_⟩
  · rw [nodeOrder_simplifyT t S hv hnd, List.mem_range]
    exact hplt
  · rw [beq_iff_eq, hnode]
    show indMapF t S ((nodeAt t n).individual) = (j : Int)
    exact hmap

theorem indMapF_simplifyT_id (t : Tables) (S : List Nat)
    (hv : ValidEdges t) (hnd : S.Nodup) (v : Int) :
    indMapF (simplifyT t S).1 (List.range S.length) (indMapF t S v) =
      indMapF t S v := by
  rcases indMapF_cases t S v with h | ⟨j, hj, h⟩
  · rw [h]
    unfold indMapF
    rw [if_pos (by decide : (-1 : Int) < 0)]
  · rw [h]
    unfold indMapF
    rw [if_neg (Int.not_lt.mpr (Int.natCast_nonneg _)), Int.toNat_ofNat,
      retainedInds_simplifyT t S hv hnd, idxOf_range _ j hj]

theorem simplifyT_node_individual_shape (t : Tables) (S : List Nat) (p : Nat)
    (hp : p < (nodeOrder t S).length) :
    ∃ v, (nodeAt (simplifyT t S).1 p).individual = indMapF t S v := by
  have hg : (nodeOrder t S)[p]? = some ((nodeOrder t S)[p]) :=
    List.getElem?_eq_getElem hp
  rw [simplifyT_nodeAt t S p _ hg]
  exact ⟨_, rfl⟩

theorem simplifyT_idem_nodes (t : Tables) (S : List Nat)
    (hv : ValidEdges t) (hnd : S.Nodup) :
    (simplifyT (simplifyT t S).1 (List.range S.length)).1.nodes =
      (simplifyT t S).1.nodes := by
  show (nodeOrder (simplifyT t S).1 (List.range S.length)).map
      (renode (simplifyT t S).1 (List.range S.length)) = _
  rw [nodeOrder_simplifyT t S hv hnd]
  apply List.ext_getElem
  · rw [List.length_map, List.length_range, simplifyT_nodes_length]
  · intro p h1 h2
    rw [List.getElem_map, List.getElem_range]
    have hp : p < (nodeOrder t S).length := by
      rw [List.length_map, List.length_range] at h1
      exact h1
    have hplen : p < (simplifyT t S).1.nodes.length := by
      rw [simplifyT_nodes_length]
      exact hp
    rw [← nodeAt_eq_getElem _ p hplen]
    show (⟨(nodeAt (simplifyT t S).1 p).time,
          indMapF (simplifyT t S).1 (List.range S.length)
            (nodeAt (simplifyT t S).1 p).individual,
          decide (p ∈ List.range S.length)⟩ : Node) = nodeAt (simplifyT t S).1 p
    obtain ⟨v, hvshape⟩ := simplifyT_node_individual_shape t S p hp
    have hind : indMapF (simplifyT t S).1 (List.range S.length)
        (nodeAt (simplifyT t S).1 p).individual =
        (nodeAt (simplifyT t S).1 p).individual := by
      rw [hvshape]
      exact indMapF_simplifyT_id t S hv hnd v
    have hflag : decide (p ∈ List.range S.length) =
        (nodeAt (simplifyT t S).1 p).isSample := by
      rw [simplifyT_isSample t S p hp]
      simp [List.mem_range]
    rw [hind, hflag]

theorem simplifyT_idem_edges (t : Tables) (S : List Nat)
    (hv : ValidEdges t) (hnd : S.Nodup) :
    (simplifyT (simplifyT t S).1 (List.range S.length)).1.edges =
      (simplifyT t S).1.edges := by
  show ((simplifyT t S).1.edges.filter
      (fun e => retainedB (simplifyT t S).1 (List.range S.length) e.child)).map
      (fun e => (⟨e.left, e.right,
        (nodeMapF (simplifyT t S).1 (List.range S.length) e.parent).toNat,
        (nodeMapF (simplifyT t S).1 (List.range S.length) e.child).toNat⟩ : Edge)) = _
  have hv1 := validEdges_simplifyT t S hv
  have hfilter : (simplifyT t S).1.edges.filter
      (fun e => retainedB (simplifyT t S).1 (List.range S.length) e.child) =
      (simplifyT t S).1.edges := by
    apply List.filter_eq_self.mpr
    intro e he
    apply simplifyT_all_retained t S hv hnd
    have := (hv1 e he).2.1
    rw [simplifyT_nodes_length] at this
    exact this
  rw [hfilter]
  have hid : ∀ e ∈ (simplifyT t S).1.edges,
      (⟨e.left, e.right,
        (nodeMapF (simplifyT t S).1 (List.range S.length) e.parent).toNat,
        (nodeMapF (simplifyT t S).1 (List.range S.length) e.child).toNat⟩ : Edge) =
      id e := by
    intro e he
    obtain ⟨hp, hc, _⟩ := hv1 e he
    rw [simplifyT_nodes_length] at hp hc
    rw [nodeMapF_simplifyT_id t S hv hnd e.parent hp,
      nodeMapF_simplifyT_id t S hv hnd e.child hc, Int.toNat_ofNat, Int.toNat_ofNat]
    rfl
  rw [List.map_congr_left hid, List.map_id]

theorem simplifyT_idem_inds (t : Tables) (S : List Nat)
    (hv : ValidEdges t) (hnd : S.Nodup) :
    (simplifyT (simplifyT t S).1 (List.range S.length)).1.individuals =
      (simplifyT t S).1.individuals := by
  show (retainedInds (simplifyT t S).1 (List.range S.length)).map
      (fun i => (⟨(((simplifyT t S).1.individuals.getD i ⟨[]⟩).parents).map
        (indMapF (simplifyT t S).1 (List.range S.length))⟩ : Individual)) = _
  rw [retainedInds_simplifyT t S hv hnd, ← simplifyT_inds_length t S]
  have hent : ∀ j ∈ List.range (simplifyT t S).1.individuals.length,
      (⟨(((simplifyT t S).1.individuals.getD j ⟨[]⟩).parents).map
        (indMapF (simplifyT t S).1 (List.range S.length))⟩ : Individual) =
      (simplifyT t S).1.individuals.getD j ⟨[]⟩ := by
    intro j hj
    rw [List.mem_range] at hj
    have hj' : j < (retainedInds t S).length := by
      rw [simplifyT_inds_length] at hj
      exact hj
    have hentry : (simplifyT t S).1.individuals.getD j ⟨[]⟩ =
        ⟨((t.individuals.getD ((retainedInds t S)[j]) ⟨[]⟩).parents).map
          (indMapF t S)⟩ := by
      show ((retainedInds t S).map (fun i =>
        (⟨((t.individuals.getD i ⟨[]⟩).parents).map (indMapF t S)⟩ : Individual))).getD
          j ⟨[]⟩ = _
      rw [List.getD_eq_getElem _ _ (by rw [List.length_map]; exact hj'),
        List.getElem_map]
    rw [hentry]
    show (⟨(((t.individuals.getD ((retainedInds t S)[j]) ⟨[]⟩).parents).map
        (indMapF t S)).map (indMapF (simplifyT t S).1 (List.range S.length))⟩ :
      Individual) = _
    rw [List.map_map]
    congr 1
    apply List.map_congr_left
    intro v _
    exact indMapF_simplifyT_id t S hv hnd v
  rw [List.map_congr_left hent, map_range_getD]

/-- C4: compaction is idempotent.  For a valid ledger (in-range edge
endpoints, parent strictly older than child on every edge) and a
duplicate-free in-range sample list — the conditions under which the first
simplification succeeds — simplifying the simplified ledger a second time
against its own sample nodes returns the very same ledger, and the node
mapping of the second simplification is the identity on every node. -/
theorem simplify_idempotent (t : Tables) (S : List Nat)
    (hv : ValidEdges t) (hnd : S.Nodup) (hS : ∀ s ∈ S, s < t.nodes.length) :
    (simplifyT (simplifyT t S).1 (samplesOf (simplifyT t S).1)).1 =
      (simplifyT t S).1 ∧
    ((List.range (simplifyT t S).1.nodes.length).map
        (simplifyT (simplifyT t S).1 (samplesOf (simplifyT t S).1)).2) =
      (List.range (simplifyT t S).1.nodes.length).map (fun n : Nat => (n : Int)) := by
  rw [samplesOf_simplifyT t S]
  constructor
  · apply tablesExt
    · rfl
    · exact simplifyT_idem_nodes t S hv hnd
    · exact simplifyT_idem_edges t S hv hnd
    · exact simplifyT_idem_inds t S hv hnd
  · apply List.map_congr_left
    intro p hp
    rw [List.mem_range, simplifyT_nodes_length] at hp
    show nodeMapF (simplifyT t S).1 (List.range S.length) p = (p : Int)
    exact nodeMapF_simplifyT_id t S hv hnd p hp

/-- Concrete two-node ledger (one sample, one older parent, one edge) used
to instantiate C4. -/
def c4Tables : Tables := ⟨10, [⟨0, 0, true⟩, ⟨1, 0, true⟩], [⟨0, 10, 1, 0⟩], [⟨[]⟩]⟩

theorem simplify_idempotent_witness :
    ValidEdges c4Tables ∧ ([(0 : Nat)] : List Nat).Nodup ∧
    (∀ s ∈ [(0 : Nat)], s < c4Tables.nodes.length) ∧
    ((simplifyT (simplifyT c4Tables [0]).1 (samplesOf (simplifyT c4Tables [0]).1)).1 =
        (simplifyT c4Tables [0]).1 ∧
      ((List.range (simplifyT c4Tables [0]).1.nodes.length).map
          (simplifyT (simplifyT c4Tables [0]).1
            (samplesOf (simplifyT c4Tables [0]).1)).2) =
        (List.range (simplifyT c4Tables [0]).1.nodes.length).map
          (fun n : Nat => (n : Int))) :=
  ⟨by unfold ValidEdges; decide, by decide, by decide,
   simplify_idempotent c4Tables [0] (by unfold ValidEdges; decide) (by decide) (by decide)⟩

end ForwardSim
